import Mathlib

/-!
Verification of the lazy flake-outputs explorer (nix-viewer).

The definitions below are shallow embeddings of the TypeScript sources:
`src/searchProvider.ts` (SearchProvider), `src/nixRunner.ts` (NixRunner and
FlakeTreeProvider), `src/flakeNode.ts` (FlakeNode), and — for the
smart-refresh orchestrator, whose implementation file is absent and known
only through its callers in `extension.ts` and the design document
`docs/nixd-migration-plan.md` — definitions modelled from that document.

Strings are manipulated through their underlying character lists
(`String.data`), which matches the JavaScript character-by-character loops
of the source.
-/

namespace NixViewer

/-! ### Character-level dotted-path utilities

`dotSplitChars` is the semantics of JavaScript `path.split('.')`: it splits
at every dot and keeps empty pieces (`"a..b" ↦ ["a","","b"]`, `"" ↦ [""]`).
`joinDots` is the semantics of JavaScript `parts.join('.')`. -/

def consHead (c : Char) : List (List Char) → List (List Char)
  | s :: ss => (c :: s) :: ss
  | [] => [[c]]

def dotSplitChars : List Char → List (List Char)
  | [] => [[]]
  | c :: rest =>
    if c = '.' then [] :: dotSplitChars rest else consHead c (dotSplitChars rest)

def joinDots : List (List Char) → List Char
  | [] => []
  | [s] => s
  | s :: ss => s ++ '.' :: joinDots ss

theorem dotSplitChars_ne_nil (cs : List Char) : dotSplitChars cs ≠ [] := by
  induction cs with
  | nil => simp [dotSplitChars]
  | cons c rest ih =>
    simp only [dotSplitChars]
    split
    · simp
    · cases h : dotSplitChars rest with
      | nil => simp [consHead]
      | cons s ss => simp [consHead]

theorem joinDots_cons (s : List Char) (ss : List (List Char)) (h : ss ≠ []) :
    joinDots (s :: ss) = s ++ '.' :: joinDots ss := by
  cases ss with
  | nil => exact absurd rfl h
  | cons t ts => rfl

theorem consHead_cons (c : Char) (s : List Char) (ss : List (List Char)) :
    consHead c (s :: ss) = (c :: s) :: ss := rfl

theorem dotSplitChars_dot (rest : List Char) :
    dotSplitChars ('.' :: rest) = [] :: dotSplitChars rest := by
  simp [dotSplitChars]

theorem dotSplitChars_cons {c : Char} (hc : c ≠ '.') (rest : List Char) :
    dotSplitChars (c :: rest) = consHead c (dotSplitChars rest) := by
  simp [dotSplitChars, hc]

theorem dotSplitChars_dotFree (s : List Char) (hs : '.' ∉ s) (rest : List Char) :
    dotSplitChars (s ++ '.' :: rest) = s :: dotSplitChars rest := by
  induction s with
  | nil => simp [dotSplitChars]
  | cons c cs ih =>
    have hc : c ≠ '.' := fun hcontra => hs (by simp [hcontra])
    have hcs : '.' ∉ cs := fun hmem => hs (by simp [hmem])
    rw [List.cons_append, dotSplitChars_cons hc, ih hcs, consHead_cons]

theorem dotSplitChars_dotFree_all (s : List Char) (hs : '.' ∉ s) :
    dotSplitChars s = [s] := by
  induction s with
  | nil => rfl
  | cons c cs ih =>
    have hc : c ≠ '.' := fun hcontra => hs (by simp [hcontra])
    have hcs : '.' ∉ cs := fun hmem => hs (by simp [hmem])
    rw [dotSplitChars_cons hc, ih hcs, consHead_cons]

/-- `split('.')` is a left inverse of `join('.')` whenever every piece is
dot-free (pieces may be empty, as in JavaScript). -/
theorem dotSplitChars_joinDots (ss : List (List Char)) (hne : ss ≠ [])
    (hdot : ∀ s ∈ ss, '.' ∉ s) :
    dotSplitChars (joinDots ss) = ss := by
  induction ss with
  | nil => exact absurd rfl hne
  | cons s ts ih =>
    cases ts with
    | nil => exact dotSplitChars_dotFree_all s (hdot s (by simp))
    | cons t ts' =>
      rw [joinDots_cons s (t :: ts') (by simp),
        dotSplitChars_dotFree s (hdot s (by simp)),
        ih (by simp) (fun u hu => hdot u (by simp [hu]))]

/-- Splitting a list at an explicit dot splits around it. -/
theorem dotSplitChars_append_dot (a b : List Char) :
    dotSplitChars (a ++ '.' :: b) = dotSplitChars a ++ dotSplitChars b := by
  induction a with
  | nil => simp [dotSplitChars]
  | cons c a' ih =>
    by_cases hc : c = '.'
    · subst hc
      rw [List.cons_append, dotSplitChars_dot, dotSplitChars_dot, ih,
        List.cons_append]
    · rw [List.cons_append, dotSplitChars_cons hc, dotSplitChars_cons hc, ih]
      cases h : dotSplitChars a' with
      | nil => exact absurd h (dotSplitChars_ne_nil a')
      | cons s ss => simp [consHead_cons]

/-- `join('.')` is a left inverse of `split('.')` unconditionally. -/
theorem joinDots_dotSplitChars (cs : List Char) :
    joinDots (dotSplitChars cs) = cs := by
  induction cs with
  | nil => rfl
  | cons c rest ih =>
    by_cases hc : c = '.'
    · subst hc
      rw [dotSplitChars_dot,
        joinDots_cons [] (dotSplitChars rest) (dotSplitChars_ne_nil rest)]
      simp [ih]
    · rw [dotSplitChars_cons hc]
      cases h : dotSplitChars rest with
      | nil => exact absurd h (dotSplitChars_ne_nil rest)
      | cons s ss =>
        rw [h] at ih
        cases ss with
        | nil =>
          simp only [joinDots] at ih ⊢
          simp [consHead_cons, joinDots, ih]
        | cons t ts =>
          rw [consHead_cons,
            joinDots_cons (c :: s) (t :: ts) (by simp)]
          rw [joinDots_cons s (t :: ts) (by simp)] at ih
          rw [List.cons_append, ih]

/-! ### SearchProvider.splitPath (src/searchProvider.ts, lines 105-133)

The bracket-aware splitter: splits on dots, but a dot between `[` and `]`
is kept inside the current segment; empty segments are dropped. -/

def splitPathAux : List Char → List Char → Bool → List (List Char)
  | [], current, _ => if current = [] then [] else [current]
  | c :: cs, current, inBracket =>
    if c = '[' then splitPathAux cs (current ++ [c]) true
    else if c = ']' then splitPathAux cs (current ++ [c]) false
    else if c = '.' ∧ inBracket = false then
      (if current = [] then splitPathAux cs [] inBracket
       else current :: splitPathAux cs [] inBracket)
    else splitPathAux cs (current ++ [c]) inBracket

/-- `SearchProvider.splitPath`. -/
def splitPath (path : String) : List String :=
  (splitPathAux path.data [] false).map String.mk

/-- Serialization of segments back to display form: `parts.join('.')`.
This is the `serialize` of the spec's Path Model and the semantics of the
`.join('.')` used by `NixRunner.parseAttrPath`. -/
def serializeSegments : List String → String
  | [] => ""
  | [s] => s
  | s :: ss => s ++ "." ++ serializeSegments ss

theorem serializeSegments_data (ss : List String) :
    (serializeSegments ss).data = joinDots (ss.map String.data) := by
  induction ss with
  | nil => rfl
  | cons s ts ih =>
    cases ts with
    | nil => rfl
    | cons t ts' =>
      simp only [serializeSegments, List.map_cons]
      rw [joinDots_cons _ _ (by simp)]
      have : (s ++ "." ++ serializeSegments (t :: ts')).data
          = s.data ++ '.' :: (serializeSegments (t :: ts')).data := by
        simp [String.data_append]
      rw [this, ih]
      simp [List.map_cons]

/-! Step lemmas for `splitPathAux`, one per branch of the loop body. -/

theorem splitPathAux_lbracket (cs current : List Char) (b : Bool) :
    splitPathAux ('[' :: cs) current b = splitPathAux cs (current ++ ['[']) true := by
  simp [splitPathAux]

theorem splitPathAux_rbracket (cs current : List Char) (b : Bool) :
    splitPathAux (']' :: cs) current b = splitPathAux cs (current ++ [']']) false := by
  simp [splitPathAux]

theorem splitPathAux_dot_out (cs current : List Char) :
    splitPathAux ('.' :: cs) current false
      = if current = [] then splitPathAux cs [] false
        else current :: splitPathAux cs [] false := by
  simp [splitPathAux]

theorem splitPathAux_dot_in (cs current : List Char) :
    splitPathAux ('.' :: cs) current true
      = splitPathAux cs (current ++ ['.']) true := by
  simp [splitPathAux]

theorem splitPathAux_other (c : Char) (h1 : c ≠ '[') (h2 : c ≠ ']')
    (h3 : c ≠ '.') (cs current : List Char) (b : Bool) :
    splitPathAux (c :: cs) current b = splitPathAux cs (current ++ [c]) b := by
  simp [splitPathAux, h1, h2, h3]

/-- A valid display-form segment: either a name (nonempty, containing no
dot and no bracket), or a bracketed integer index `[d…d]`. -/
inductive ValidSeg : List Char → Prop
  | name (s : List Char) (h1 : s ≠ [])
      (h2 : ∀ c ∈ s, c ≠ '.' ∧ c ≠ '[' ∧ c ≠ ']') : ValidSeg s
  | index (d : List Char) (h1 : d ≠ []) (h2 : ∀ c ∈ d, c.isDigit) :
      ValidSeg ('[' :: (d ++ [']']))

theorem validSeg_ne_nil {s : List Char} (h : ValidSeg s) : s ≠ [] := by
  cases h with
  | name s h1 _ => exact h1
  | index d _ _ => simp

/-- Consuming name characters just extends the current segment. -/
theorem splitPathAux_name (s : List Char)
    (hs : ∀ c ∈ s, c ≠ '.' ∧ c ≠ '[' ∧ c ≠ ']')
    (rest current : List Char) :
    splitPathAux (s ++ rest) current false
      = splitPathAux rest (current ++ s) false := by
  induction s generalizing current with
  | nil => simp
  | cons c cs ih =>
    have hc := hs c (by simp)
    have hcs : ∀ x ∈ cs, x ≠ '.' ∧ x ≠ '[' ∧ x ≠ ']' :=
      fun x hx => hs x (by simp [hx])
    rw [List.cons_append, splitPathAux_other c hc.2.1 hc.2.2 hc.1, ih hcs]
    simp

/-- Inside a bracket, every character (dots included) extends the segment. -/
theorem splitPathAux_inBracket (s : List Char)
    (hs : ∀ c ∈ s, c ≠ '[' ∧ c ≠ ']')
    (rest current : List Char) :
    splitPathAux (s ++ rest) current true
      = splitPathAux rest (current ++ s) true := by
  induction s generalizing current with
  | nil => simp
  | cons c cs ih =>
    have hc := hs c (by simp)
    have hcs : ∀ x ∈ cs, x ≠ '[' ∧ x ≠ ']' :=
      fun x hx => hs x (by simp [hx])
    by_cases hdot : c = '.'
    · subst hdot
      rw [List.cons_append, splitPathAux_dot_in, ih hcs]
      simp
    · rw [List.cons_append, splitPathAux_other c hc.1 hc.2 hdot, ih hcs]
      simp

/-- Consuming one whole valid segment extends the current segment by it. -/
theorem splitPathAux_validSeg {s : List Char} (h : ValidSeg s)
    (rest current : List Char) :
    splitPathAux (s ++ rest) current false
      = splitPathAux rest (current ++ s) false := by
  cases h with
  | name s h1 h2 => exact splitPathAux_name s h2 rest current
  | index d h1 h2 =>
    have hd : ∀ c ∈ d, c ≠ '[' ∧ c ≠ ']' := by
      intro c hc
      have := h2 c hc
      constructor
      · intro hcontra; subst hcontra; simp [Char.isDigit] at this
      · intro hcontra; subst hcontra; simp [Char.isDigit] at this
    show splitPathAux ('[' :: (d ++ [']']) ++ rest) current false = _
    rw [List.cons_append, splitPathAux_lbracket, List.append_assoc,
      List.singleton_append, splitPathAux_inBracket d hd (']' :: rest),
      splitPathAux_rbracket]
    simp

/-- Splitting the serialization of valid segments recovers them. -/
theorem splitPathAux_joinDots (ss : List (List Char)) (hne : ss ≠ [])
    (hval : ∀ s ∈ ss, ValidSeg s) :
    splitPathAux (joinDots ss) [] false = ss := by
  induction ss with
  | nil => exact absurd rfl hne
  | cons s ts ih =>
    have hvs : ValidSeg s := hval s (by simp)
    cases ts with
    | nil =>
      show splitPathAux (joinDots [s]) [] false = [s]
      simp only [joinDots]
      have step := splitPathAux_validSeg hvs [] []
      simp only [List.append_nil, List.nil_append] at step
      rw [step]
      simp [splitPathAux, validSeg_ne_nil hvs]
    | cons t ts' =>
      rw [joinDots_cons s (t :: ts') (by simp)]
      have hstep := splitPathAux_validSeg hvs ('.' :: joinDots (t :: ts')) []
      simp only [List.nil_append] at hstep
      rw [hstep, splitPathAux_dot_out, if_neg (validSeg_ne_nil hvs),
        ih (by simp) (fun u hu => hval u (by simp [hu]))]

theorem mk_data (s : String) : String.mk s.data = s := rfl

/-- C1: for every valid display-form attribute path (dotted names with
optional bracketed integer segments, e.g. `a.b.[3].c`), splitting the path
into segments with `SearchProvider.splitPath` and re-serializing the
segments with `.`-separators yields the path again; the segments — index
segments such as `[3]` included, and numeric-looking names included — are
recovered exactly, so an index segment is never confused with a name
segment. -/
theorem C1_parse_serialize_roundtrip (segs : List String) (hne : segs ≠ [])
    (hval : ∀ s ∈ segs, ValidSeg s.data) :
    splitPath (serializeSegments segs) = segs ∧
    serializeSegments (splitPath (serializeSegments segs))
      = serializeSegments segs := by
  have h1 : splitPath (serializeSegments segs) = segs := by
    unfold splitPath
    rw [serializeSegments_data,
      splitPathAux_joinDots (segs.map String.data) (by simpa using hne)
        (by intro s hs
            rcases List.mem_map.mp hs with ⟨t, ht, rfl⟩
            exact hval t ht),
      List.map_map]
    simp [Function.comp_def, mk_data]
  exact ⟨h1, by rw [h1]⟩

/-- Witness for C1 at the concrete path `a.7.[3].c` (the name `7` looks
numeric yet is kept distinct from the index segment `[3]`). -/
theorem C1_witness :
    splitPath (serializeSegments ["a", "7", "[3]", "c"])
      = ["a", "7", "[3]", "c"] ∧
    serializeSegments (splitPath (serializeSegments ["a", "7", "[3]", "c"]))
      = serializeSegments ["a", "7", "[3]", "c"] :=
  C1_parse_serialize_roundtrip ["a", "7", "[3]", "c"] (by simp)
    (by
      intro s hs
      fin_cases hs
      · exact ValidSeg.name ['a'] (by decide) (by decide)
      · exact ValidSeg.name ['7'] (by decide) (by decide)
      · exact ValidSeg.index ['3'] (by decide) (by decide)
      · exact ValidSeg.name ['c'] (by decide) (by decide))

/-! ### Decimal rendering and parsing of numbers

`natToString` is the canonical decimal rendering used for JavaScript
`String(n)` / template interpolation; `digitsToNat` is `parseInt(s, 10)`
restricted to digit strings. -/

def digitChar (n : Nat) : Char :=
  match n with
  | 0 => '0' | 1 => '1' | 2 => '2' | 3 => '3' | 4 => '4'
  | 5 => '5' | 6 => '6' | 7 => '7' | 8 => '8' | 9 => '9'
  | _ => '*'

def digitVal (c : Char) : Nat := c.toNat - 48

/-- Digit extraction, structurally recursive on a fuel bound (`fuel ≥ n`
always holds at call sites, so the fuel never actually runs out). -/
def natDigitsAux : Nat → Nat → List Char → List Char
  | 0, n, acc => digitChar (n % 10) :: acc
  | fuel + 1, n, acc =>
    if n < 10 then digitChar n :: acc
    else natDigitsAux fuel (n / 10) (digitChar (n % 10) :: acc)

def natDigits (n : Nat) : List Char := natDigitsAux n n []

def natToString (n : Nat) : String := String.mk (natDigits n)

def digitsToNat (cs : List Char) : Nat :=
  cs.foldl (fun a c => a * 10 + digitVal c) 0

theorem digitVal_digitChar {m : Nat} (hm : m < 10) :
    digitVal (digitChar m) = m := by
  interval_cases m <;> decide

theorem isDigit_digitChar {m : Nat} (hm : m < 10) :
    (digitChar m).isDigit = true := by
  interval_cases m <;> decide

theorem natDigitsAux_acc (fuel : Nat) :
    ∀ (n : Nat) (acc : List Char),
      natDigitsAux fuel n acc = natDigitsAux fuel n [] ++ acc := by
  induction fuel with
  | zero => intro n acc; rfl
  | succ f ih =>
    intro n acc
    by_cases h : n < 10
    · rw [natDigitsAux, if_pos h]
      conv_rhs => rw [natDigitsAux, if_pos h]
      simp
    · rw [natDigitsAux, if_neg h, ih]
      conv_rhs => rw [natDigitsAux, if_neg h, ih (n / 10) [digitChar (n % 10)]]
      simp

theorem natDigitsAux_fuel {fuel1 : Nat} :
    ∀ {fuel2 n : Nat} (acc : List Char), n ≤ fuel1 → n ≤ fuel2 →
      natDigitsAux fuel1 n acc = natDigitsAux fuel2 n acc := by
  induction fuel1 with
  | zero =>
    intro fuel2 n acc h1 h2
    have hn : n = 0 := Nat.le_zero.mp h1
    subst hn
    cases fuel2 with
    | zero => rfl
    | succ g => rw [natDigitsAux, natDigitsAux, if_pos (by omega)]
  | succ f ih =>
    intro fuel2 n acc h1 h2
    by_cases h : n < 10
    · rw [natDigitsAux, if_pos h]
      cases fuel2 with
      | zero =>
        have hn : n = 0 := Nat.le_zero.mp h2
        subst hn
        rfl
      | succ g => rw [natDigitsAux, if_pos h]
    · have h10 : 10 ≤ n := by omega
      have hdiv : n / 10 < n := Nat.div_lt_self (by omega) (by omega)
      rw [natDigitsAux, if_neg h]
      cases fuel2 with
      | zero => omega
      | succ g =>
        rw [natDigitsAux, if_neg h]
        exact ih _ (by omega) (by omega)

theorem natDigits_large {n : Nat} (h : ¬ n < 10) :
    natDigits n = natDigits (n / 10) ++ [digitChar (n % 10)] := by
  have hn : ∃ m, n = m + 1 := ⟨n - 1, by omega⟩
  rcases hn with ⟨m, rfl⟩
  have hdiv : (m + 1) / 10 < m + 1 := Nat.div_lt_self (by omega) (by omega)
  rw [natDigits, natDigitsAux, if_neg h, natDigitsAux_acc,
    natDigitsAux_fuel [] (by omega) (le_refl _)]
  rfl

theorem natDigits_small {n : Nat} (h : n < 10) :
    natDigits n = [digitChar n] := by
  cases n with
  | zero => rfl
  | succ k => rw [natDigits, natDigitsAux, if_pos h]

theorem digitsToNat_natDigits (n : Nat) : digitsToNat (natDigits n) = n := by
  induction n using Nat.strong_induction_on with
  | _ n ih =>
    by_cases h : n < 10
    · rw [natDigits_small h]
      simp [digitsToNat, digitVal_digitChar h]
    · have hlt : n / 10 < n := Nat.div_lt_self (by omega) (by omega)
      rw [natDigits_large h]
      simp only [digitsToNat, List.foldl_append, List.foldl_cons,
        List.foldl_nil]
      have := ih _ hlt
      simp only [digitsToNat] at this
      rw [this, digitVal_digitChar (Nat.mod_lt _ (by omega))]
      omega

theorem natDigits_all_digit (n : Nat) : ∀ c ∈ natDigits n, c.isDigit := by
  induction n using Nat.strong_induction_on with
  | _ n ih =>
    by_cases h : n < 10
    · rw [natDigits_small h]
      simpa using isDigit_digitChar h
    · have hlt : n / 10 < n := Nat.div_lt_self (by omega) (by omega)
      rw [natDigits_large h]
      intro c hc
      rcases List.mem_append.mp hc with hc | hc
      · exact ih _ hlt c hc
      · simp only [List.mem_singleton] at hc
        subst hc
        exact isDigit_digitChar (Nat.mod_lt _ (by omega))

theorem natDigits_ne_nil (n : Nat) : natDigits n ≠ [] := by
  by_cases h : n < 10
  · rw [natDigits_small h]; simp
  · rw [natDigits_large h]; simp

theorem isDigit_not_special {c : Char} (h : c.isDigit = true) :
    c ≠ '.' ∧ c ≠ '[' ∧ c ≠ ']' := by
  refine ⟨?_, ?_, ?_⟩ <;> intro hc <;> subst hc <;> simp at h

/-! ### NixRunner.parseAttrPath (src/nixRunner.ts, lines 187-212) -/

/-- The test `part.match(/^\[(\d+)\]$/)` together with
`parseInt(match[1], 10)`: the whole part must be `[`, one or more digits,
`]`; the digits are read in decimal. -/
def matchIndexSeg (s : List Char) : Option Nat :=
  if s.head? = some '[' ∧ s.getLast? = some ']' ∧
     (s.drop 1).dropLast ≠ [] ∧ (s.drop 1).dropLast.all Char.isDigit
  then some (digitsToNat ((s.drop 1).dropLast)) else none

structure ParsedAttrPath where
  basePath : String
  listAccesses : List Nat
deriving DecidableEq, Repr

/-- `NixRunner.parseAttrPath`: split the path on every dot, collect parts
matching the index regex into `listAccesses` in order, every other part
into the base path (the source's two non-index branches have identical
bodies), and re-join the base parts with dots. -/
def parseAttrPath (attrPath : String) : ParsedAttrPath :=
  let parts := (dotSplitChars attrPath.data).map String.mk
  let acc := parts.foldl
    (fun (acc : List String × List Nat) part =>
      match matchIndexSeg part.data with
      | some n => (acc.1, acc.2 ++ [n])
      | none => (acc.1 ++ [part], acc.2))
    ([], [])
  { basePath := serializeSegments acc.1, listAccesses := acc.2 }

theorem matchIndexSeg_bracketed {d : List Char} (hne : d ≠ [])
    (hdig : ∀ c ∈ d, c.isDigit) :
    matchIndexSeg ('[' :: (d ++ [']'])) = some (digitsToNat d) := by
  have hhead : ('[' :: (d ++ [']'])).head? = some '[' := rfl
  have hlast : ('[' :: (d ++ [']'])).getLast? = some ']' := by
    have : ('[' :: (d ++ [']'])) = ('[' :: d) ++ [']'] := by simp
    rw [this, List.getLast?_concat]
  have hmid : (('[' :: (d ++ [']'])).drop 1).dropLast = d := by
    simp [List.dropLast_concat]
  rw [matchIndexSeg, if_pos]
  · rw [hmid]
  · refine ⟨hhead, hlast, ?_, ?_⟩
    · rw [hmid]; exact hne
    · rw [hmid]; exact List.all_eq_true.mpr fun c hc => hdig c hc

theorem matchIndexSeg_not_lbracket {s : List Char} (h : s.head? ≠ some '[') :
    matchIndexSeg s = none := by
  rw [matchIndexSeg, if_neg]
  intro hcon
  exact h hcon.1

/-! ### NixRunner.buildEvalArgs (src/nixRunner.ts, lines 217-240)

Embedded for the callers that pass no `applyExpr` (such as
`NixRunner.getValue`); the accessor loop is the source's
`accessor = ... ; for (const idx of listAccesses) { accessor = ... }`. -/

def accessorStep (acc : String) (idx : Nat) : String :=
  "(builtins.elemAt " ++ acc ++ " " ++ natToString idx ++ ")"

def buildEvalArgs (attrPath : String) : List String :=
  let parsed := parseAttrPath attrPath
  let flakeRef := if parsed.basePath = "" then "." else ".#" ++ parsed.basePath
  if parsed.listAccesses = [] then ["eval", "--json", flakeRef]
  else
    let accessor := parsed.listAccesses.foldl accessorStep "x"
    ["eval", "--json", flakeRef, "--apply", "x: " ++ accessor]

/-! A small accessor language giving the built `builtins.elemAt` strings a
semantics: `renderAcc` produces exactly the strings the accessor loop
produces, and `evalAcc` is element access on list values. -/

inductive AccExpr
  | var
  | elemAt (e : AccExpr) (i : Nat)

def renderAcc : AccExpr → String
  | .var => "x"
  | .elemAt e i => "(builtins.elemAt " ++ renderAcc e ++ " " ++ natToString i ++ ")"

inductive NixVal
  | scalar (s : String)
  | vlist (xs : List NixVal)

/-- `builtins.elemAt` on the value model (out-of-range and non-list give
no result). -/
def elemAtVal (i : Nat) : NixVal → Option NixVal
  | .vlist xs => xs.get? i
  | .scalar _ => none

def evalAcc : AccExpr → NixVal → Option NixVal
  | .var, v => some v
  | .elemAt e i, v => (evalAcc e v).bind (elemAtVal i)

def chainExpr (idxs : List Nat) : AccExpr := idxs.foldl AccExpr.elemAt AccExpr.var

theorem renderAcc_foldl (idxs : List Nat) (e : AccExpr) :
    renderAcc (idxs.foldl AccExpr.elemAt e)
      = idxs.foldl accessorStep (renderAcc e) := by
  induction idxs generalizing e with
  | nil => rfl
  | cons i rest ih => simp [List.foldl_cons, ih, renderAcc, accessorStep]

theorem evalAcc_foldl (idxs : List Nat) (e : AccExpr) (v : NixVal) :
    evalAcc (idxs.foldl AccExpr.elemAt e) v
      = idxs.foldl (fun ov i => ov.bind (elemAtVal i)) (evalAcc e v) := by
  induction idxs generalizing e with
  | nil => rfl
  | cons i rest ih => simp [List.foldl_cons, ih, evalAcc]

theorem indexSeg_data (i : Nat) :
    ("[" ++ natToString i ++ "]").data = '[' :: (natDigits i ++ [']']) := by
  simp [String.data_append, natToString]

theorem matchIndexSeg_indexSeg (i : Nat) :
    matchIndexSeg ("[" ++ natToString i ++ "]").data = some i := by
  rw [indexSeg_data,
    matchIndexSeg_bracketed (natDigits_ne_nil i) (natDigits_all_digit i),
    digitsToNat_natDigits]

/-- Folding the classification loop over index-shaped parts appends all
their indices, in order, to the accumulator. -/
theorem parseFold_indexParts (idxs : List Nat) (base : List String)
    (ixs : List Nat) :
    (idxs.map (fun i => "[" ++ natToString i ++ "]")).foldl
      (fun (acc : List String × List Nat) part =>
        match matchIndexSeg part.data with
        | some n => (acc.1, acc.2 ++ [n])
        | none => (acc.1 ++ [part], acc.2))
      (base, ixs) = (base, ixs ++ idxs) := by
  induction idxs generalizing ixs with
  | nil => simp
  | cons i rest ih =>
    simp only [List.map_cons, List.foldl_cons, matchIndexSeg_indexSeg]
    rw [ih]
    simp

theorem natToString_small {n : Nat} (h : n < 10) :
    natToString n = String.mk [digitChar n] := by
  rw [natToString, natDigits_small h]

theorem parseAttrPath_indexed (name : String) (idxs : List Nat)
    (hdot : '.' ∉ name.data) (hbr : '[' ∉ name.data) :
    parseAttrPath (serializeSegments
      (name :: idxs.map (fun i => "[" ++ natToString i ++ "]")))
      = ⟨name, idxs⟩ := by
  have hdotfree : ∀ s ∈ (name :: idxs.map
      fun i => "[" ++ natToString i ++ "]").map String.data, '.' ∉ s := by
    intro s hs
    simp only [List.map_cons, List.mem_cons, List.mem_map] at hs
    rcases hs with rfl | ⟨t, ⟨i, hi, rfl⟩, rfl⟩
    · exact hdot
    · rw [indexSeg_data]
      intro hmem
      rcases List.mem_cons.mp hmem with h | h
      · exact absurd h.symm (by decide)
      · rcases List.mem_append.mp h with h | h
        · exact (isDigit_not_special (natDigits_all_digit i _ h)).1 rfl
        · simp only [List.mem_singleton] at h
          exact absurd h.symm (by decide)
  have hsplit : dotSplitChars (serializeSegments
      (name :: idxs.map fun i => "[" ++ natToString i ++ "]")).data
      = (name :: idxs.map fun i => "[" ++ natToString i ++ "]").map
          String.data := by
    rw [serializeSegments_data]
    exact dotSplitChars_joinDots _ (by simp) hdotfree
  have hhead : name.data.head? ≠ some '[' := by
    cases h : name.data with
    | nil => simp
    | cons c cs =>
      simp only [List.head?_cons, ne_eq, Option.some.injEq]
      intro hc
      subst hc
      apply hbr
      rw [h]
      exact List.mem_cons_self _ _
  unfold parseAttrPath
  rw [hsplit, List.map_map]
  have hmk : (name :: idxs.map fun i => "[" ++ natToString i ++ "]").map
      (String.mk ∘ String.data)
      = name :: idxs.map fun i => "[" ++ natToString i ++ "]" := by
    simp [Function.comp_def, mk_data]
  rw [hmk]
  simp only [List.foldl_cons, matchIndexSeg_not_lbracket hhead]
  rw [parseFold_indexParts idxs ([] ++ [name]) []]
  simp [serializeSegments]

/-- C9: for every path whose tail consists of index segments, the
evaluator-expression translation composes the accessors left-to-right in
segment order: the parse recovers the indices in order, the built `nix
eval` arguments carry the accessor string that is the rendering of the
left-nested `builtins.elemAt` chain, and the semantics of that chain
applies the first index to the loaded value and each following index to
the previous result — in particular for two indices `i, j` it takes
element `i` of the root and then element `j` of that result, never
element `j` of the root. -/
theorem C9_buildEvalArgs_composes (name : String) (idxs : List Nat)
    (hdot : '.' ∉ name.data) (hbr : '[' ∉ name.data) (hne : name.data ≠ [])
    (hidx : idxs ≠ []) :
    parseAttrPath (serializeSegments
      (name :: idxs.map (fun i => "[" ++ natToString i ++ "]")))
      = ⟨name, idxs⟩ ∧
    buildEvalArgs (serializeSegments
      (name :: idxs.map (fun i => "[" ++ natToString i ++ "]")))
      = ["eval", "--json", ".#" ++ name, "--apply",
         "x: " ++ renderAcc (chainExpr idxs)] ∧
    (∀ v : NixVal, evalAcc (chainExpr idxs) v
      = idxs.foldl (fun ov i => ov.bind (elemAtVal i)) (some v)) ∧
    (∀ (i j : Nat) (v : NixVal), evalAcc (chainExpr [i, j]) v
      = (elemAtVal i v).bind (elemAtVal j)) := by
  have hparse := parseAttrPath_indexed name idxs hdot hbr
  refine ⟨hparse, ?_, ?_, ?_⟩
  · rw [buildEvalArgs, hparse]
    have hbase : name ≠ "" := by
      intro h
      subst h
      exact hne rfl
    simp only [if_neg hbase, if_neg hidx]
    unfold chainExpr
    rw [renderAcc_foldl idxs AccExpr.var]
    rfl
  · intro v
    exact evalAcc_foldl idxs AccExpr.var v
  · intro i j v
    simp [chainExpr, evalAcc, List.foldl_cons]

/-- Witness for C9 at the path `a.[0].[2]` and a concrete nested-list
value: the built arguments carry the nested accessor, evaluating the chain
picks element 0 and then element 2 of that result, while element 2 of the
root does not even exist. -/
theorem C9_witness :
    parseAttrPath "a.[0].[2]" = ⟨"a", [0, 2]⟩ ∧
    buildEvalArgs "a.[0].[2]"
      = ["eval", "--json", ".#a", "--apply",
         "x: (builtins.elemAt (builtins.elemAt x 0) 2)"] ∧
    evalAcc (chainExpr [0, 2])
      (NixVal.vlist [NixVal.vlist
        [NixVal.scalar "x00", NixVal.scalar "x01", NixVal.scalar "x02"],
        NixVal.scalar "y"])
      = some (NixVal.scalar "x02") ∧
    elemAtVal 2
      (NixVal.vlist [NixVal.vlist
        [NixVal.scalar "x00", NixVal.scalar "x01", NixVal.scalar "x02"],
        NixVal.scalar "y"])
      = none := by
  have h := C9_buildEvalArgs_composes "a" [0, 2] (by decide) (by decide)
    (by decide) (by simp)
  have h0 : natToString 0 = "0" := by
    rw [natToString_small (by norm_num)]; rfl
  have h2 : natToString 2 = "2" := by
    rw [natToString_small (by norm_num)]; rfl
  have hp : serializeSegments
      ("a" :: ([0, 2].map (fun i => "[" ++ natToString i ++ "]")))
      = "a.[0].[2]" := by
    simp only [List.map_cons, List.map_nil, h0, h2]
    rfl
  rw [hp] at h
  have hr : renderAcc (chainExpr [0, 2])
      = "(builtins.elemAt (builtins.elemAt x 0) 2)" := by
    show renderAcc (AccExpr.elemAt (AccExpr.elemAt AccExpr.var 0) 2) = _
    simp only [renderAcc, h0, h2]
    rfl
  rw [hr] at h
  refine ⟨h.1, h.2.1, ?_, rfl⟩
  rw [h.2.2.1]
  rfl

/-! ### C8: behaviour of the parsers on malformed input -/

theorem splitPathAux_mem_ne_nil :
    ∀ (cs current : List Char) (b : Bool) (seg : List Char),
      seg ∈ splitPathAux cs current b → seg ≠ [] := by
  intro cs
  induction cs with
  | nil =>
    intro current b seg hseg
    simp only [splitPathAux] at hseg
    split at hseg
    · simp at hseg
    · next h =>
      simp only [List.mem_singleton] at hseg
      subst hseg
      exact h
  | cons c cs' ih =>
    intro current b seg hseg
    simp only [splitPathAux] at hseg
    split at hseg
    · exact ih _ _ _ hseg
    · split at hseg
      · exact ih _ _ _ hseg
      · split at hseg
        · split at hseg
          · exact ih _ _ _ hseg
          · next hcur =>
            rcases List.mem_cons.mp hseg with rfl | hseg
            · exact hcur
            · exact ih _ _ _ hseg
        · exact ih _ _ _ hseg

/-- C8 counterexample: the claim says malformed display strings (empty
segments, unmatched brackets) make parsing fail with a `MalformedPath`
error; the code has no failure path at all — `parseAttrPath` and
`splitPath` accept `"a..b"` (empty segment) and `"a.[3"` (unmatched
bracket) and produce ordinary results. -/
theorem C8_counterexample :
    parseAttrPath "a..b" = ⟨"a..b", []⟩ ∧
    splitPath "a..b" = ["a", "b"] ∧
    parseAttrPath "a.[3" = ⟨"a.[3", []⟩ ∧
    splitPath "a.[3" = ["a", "[3"] := by decide

/-- C8 (amended): parsing never fails — there is no `MalformedPath` error
in the code; `splitPath` silently drops empty segments (every returned
segment is nonempty) and `parseAttrPath` accepts every input, passing
non-index parts through to the base path unchanged. -/
theorem C8_parse_never_fails (s : String) :
    ∀ seg ∈ splitPath s, seg ≠ "" := by
  intro seg hseg
  rcases List.mem_map.mp hseg with ⟨cs, hcs, rfl⟩
  have hne := splitPathAux_mem_ne_nil _ _ _ _ hcs
  intro h
  apply hne
  have hdata : cs = ("" : String).data := congrArg String.data h
  simpa using hdata

/-- Witness for the amended C8: `"a"` is among the segments `splitPath`
returns for the malformed input `"a..b"`, and is nonempty. -/
theorem C8_witness : ("a" : String) ≠ "" :=
  C8_parse_never_fails "a..b" "a" (by decide)

/-! ### FlakeTreeProvider.toRelativePath (src/nixRunner.ts, lines 616-635)

`SearchProvider.toRelativePath` (src/searchProvider.ts, lines 43-61) is
character-for-character identical. `startsWith` and `slice` act on the
character list. -/

def toRelativePath (rootPath absolutePath : String) : String :=
  if rootPath = "" then absolutePath
  else if (rootPath.data ++ ['.']).isPrefixOf absolutePath.data then
    String.mk (absolutePath.data.drop (rootPath.length + 1))
  else if absolutePath = rootPath then ""
  else absolutePath

/-- C10: for every nonempty root `r`, the absolute-to-relative conversion
maps `r` itself to the empty string, maps `r ++ "." ++ s` to `s`, and
returns every other path that does not begin with `r ++ "."` unchanged
(the prefix test includes the trailing dot, so sibling names such as
`a.bc` under root `a.b` are not treated as inside the root). -/
theorem C10_toRelativePath_spec (r s p : String) (hr : r ≠ "") :
    toRelativePath r r = "" ∧
    toRelativePath r (r ++ "." ++ s) = s ∧
    (¬ (r.data ++ ['.']) <+: p.data → p ≠ r → toRelativePath r p = p) := by
  refine ⟨?_, ?_, ?_⟩
  · rw [toRelativePath, if_neg hr, if_neg, if_pos rfl]
    intro hpre
    rcases (List.isPrefixOf_iff_prefix.mp hpre) with ⟨t, ht⟩
    have hlen := congrArg List.length ht
    simp only [List.length_append, List.length_cons, List.length_nil]
      at hlen
    omega
  · have hdata : (r ++ "." ++ s).data = (r.data ++ ['.']) ++ s.data := by
      rw [String.data_append, String.data_append]
    rw [toRelativePath, if_neg hr, if_pos]
    · rw [hdata]
      have hlen : r.length + 1 = (r.data ++ ['.']).length := by
        rw [List.length_append]
        rfl
      rw [hlen, List.drop_left]
    · rw [hdata]
      exact List.isPrefixOf_iff_prefix.mpr ⟨s.data, rfl⟩
  · intro hpre hne
    rw [toRelativePath, if_neg hr, if_neg, if_neg hne]
    intro hcon
    exact hpre (List.isPrefixOf_iff_prefix.mp hcon)

/-- Witness for C10 with root `a.b`: the root maps to `""`, a child maps
to its relative form, and the sibling `a.bc` is returned unchanged. -/
theorem C10_witness :
    toRelativePath "a.b" "a.b" = "" ∧
    toRelativePath "a.b" ("a.b" ++ "." ++ "c") = "c" ∧
    toRelativePath "a.b" "a.bc" = "a.bc" :=
  have h := C10_toRelativePath_spec "a.b" "c" "a.bc" (by decide)
  ⟨h.1, h.2.1, h.2.2 (by decide) (by decide)⟩

/-! ### String-keyed maps

The JavaScript `Map<string, _>` fields (`activeProcesses`,
`debounceTimers`, `lastGoodChildren`, `prefetchCache`, `metadataCache`)
are modelled as association lists; `insertKey` models `map.set` (lookup
behaviour is identical, and an invariant keeps keys unique),
`eraseKey` models `map.delete`. -/

def lookupKey {α : Type} (k : String) : List (String × α) → Option α
  | [] => none
  | (k2, v) :: rest => if k2 = k then some v else lookupKey k rest

def eraseKey {α : Type} (k : String) (l : List (String × α)) :
    List (String × α) :=
  l.filter (fun e => !(e.1 == k))

def insertKey {α : Type} (k : String) (v : α) (l : List (String × α)) :
    List (String × α) :=
  (k, v) :: eraseKey k l

def keysUnique {α : Type} (l : List (String × α)) : Prop :=
  (l.map Prod.fst).Nodup

theorem lookupKey_insertKey_self {α : Type} (k : String) (v : α)
    (l : List (String × α)) : lookupKey k (insertKey k v l) = some v := by
  simp [insertKey, lookupKey]

theorem lookupKey_eraseKey_self {α : Type} (k : String)
    (l : List (String × α)) : lookupKey k (eraseKey k l) = none := by
  induction l with
  | nil => rfl
  | cons e rest ih =>
    by_cases h : e.1 = k
    · simpa [eraseKey, h] using (by simpa [eraseKey] using ih)
    · simp only [eraseKey, List.filter_cons] at *
      simp [h, lookupKey, ih]

theorem eraseKey_cons_self {α : Type} {k : String} {e : String × α}
    (he : e.1 = k) (rest : List (String × α)) :
    eraseKey k (e :: rest) = eraseKey k rest := by
  simp [eraseKey, List.filter_cons, he]

theorem eraseKey_cons_ne {α : Type} {k : String} {e : String × α}
    (he : ¬ e.1 = k) (rest : List (String × α)) :
    eraseKey k (e :: rest) = e :: eraseKey k rest := by
  simp [eraseKey, List.filter_cons, he]

theorem lookupKey_cons {α : Type} (q : String) (e : String × α)
    (rest : List (String × α)) :
    lookupKey q (e :: rest) = if e.1 = q then some e.2 else lookupKey q rest := by
  obtain ⟨k2, v⟩ := e
  rfl

theorem lookupKey_eraseKey_ne {α : Type} {k q : String} (h : q ≠ k)
    (l : List (String × α)) : lookupKey q (eraseKey k l) = lookupKey q l := by
  induction l with
  | nil => rfl
  | cons e rest ih =>
    by_cases he : e.1 = k
    · have hq : ¬ e.1 = q := by
        rw [he]; intro hc; exact h hc.symm
      rw [eraseKey_cons_self he, ih, lookupKey_cons, if_neg hq]
    · rw [eraseKey_cons_ne he, lookupKey_cons, lookupKey_cons, ih]

theorem keysUnique_eraseKey {α : Type} (k : String) {l : List (String × α)}
    (h : keysUnique l) : keysUnique (eraseKey k l) := by
  unfold keysUnique eraseKey at *
  exact List.Nodup.sublist (List.Sublist.map _ (List.filter_sublist l)) h

theorem not_mem_keys_eraseKey {α : Type} (k : String) (l : List (String × α)) :
    k ∉ (eraseKey k l).map Prod.fst := by
  intro hmem
  rcases List.mem_map.mp hmem with ⟨e, he, hk⟩
  have := List.of_mem_filter he
  simp only [Bool.not_eq_true'] at this
  rw [hk] at this
  simp at this

theorem keysUnique_insertKey {α : Type} (k : String) (v : α)
    {l : List (String × α)} (h : keysUnique l) :
    keysUnique (insertKey k v l) := by
  unfold keysUnique insertKey
  simp only [List.map_cons]
  exact List.nodup_cons.mpr ⟨not_mem_keys_eraseKey k l, keysUnique_eraseKey k h⟩

/-! ### NixRunner (src/nixRunner.ts, lines 19-180)

State machine for the query engine. A state records the two maps of the
class, plus observables: which process ids have been sent SIGTERM
(`killed`), the log of external invocations actually spawned (`spawned`,
in order, with the args used), and a fresh-pid counter. `run` is the
synchronous behaviour of `NixRunner.run` (cancel, then either arm a timer
or spawn); `timerFire` is the debounce-timer callback; `executeNix` is the
spawn in `NixRunner.executeNix`. -/

structure RunnerState where
  activeProcesses : List (String × Nat)
  debounceTimers : List (String × List String)
  killed : List Nat
  spawned : List (String × List String × Nat)
  nextPid : Nat
deriving DecidableEq, Repr

/-- First block of `NixRunner.cancel`: SIGTERM and drop any running
process for the key. (A pid present in `activeProcesses` has not been
killed, so the source's `!proc.killed` test is always true there.) -/
def RunnerState.cancelProc (key : String) (st : RunnerState) : RunnerState :=
  match lookupKey key st.activeProcesses with
  | some pid =>
    { st with activeProcesses := eraseKey key st.activeProcesses,
              killed := pid :: st.killed }
  | none => st

/-- Second block of `NixRunner.cancel`: clear any pending debounce timer
for the key. -/
def RunnerState.cancelTimer (key : String) (st : RunnerState) : RunnerState :=
  match lookupKey key st.debounceTimers with
  | some _ => { st with debounceTimers := eraseKey key st.debounceTimers }
  | none => st

/-- `NixRunner.cancel` runs the two blocks in order. -/
def RunnerState.cancel (key : String) (st : RunnerState) : RunnerState :=
  (st.cancelProc key).cancelTimer key

/-- `NixRunner.executeNix`: spawn the external process and register it
under the key. -/
def RunnerState.executeNix (args : List String) (key : String)
    (st : RunnerState) : RunnerState :=
  { st with activeProcesses := insertKey key st.nextPid st.activeProcesses,
            spawned := st.spawned ++ [(key, args, st.nextPid)],
            nextPid := st.nextPid + 1 }

/-- `NixRunner.run`: cancel any existing process/timer for the key, then
either arm a debounce timer holding the request or execute at once. -/
def RunnerState.run (args : List String) (key : String) (debounce : Bool)
    (st : RunnerState) : RunnerState :=
  let st1 := st.cancel key
  if debounce then
    { st1 with debounceTimers := insertKey key args st1.debounceTimers }
  else st1.executeNix args key

/-- The debounce-timer callback: delete the timer, then execute the
request it held. -/
def RunnerState.timerFire (key : String) (st : RunnerState) : RunnerState :=
  match lookupKey key st.debounceTimers with
  | some args =>
    RunnerState.executeNix args key
      { st with debounceTimers := eraseKey key st.debounceTimers }
  | none => st

/-- At most one pending process and at most one pending timer per key. -/
def RunnerInv (st : RunnerState) : Prop :=
  keysUnique st.activeProcesses ∧ keysUnique st.debounceTimers

instance (st : RunnerState) : Decidable (RunnerInv st) := by
  unfold RunnerInv keysUnique
  infer_instance

theorem RunnerInv.cancelProc {st : RunnerState} (h : RunnerInv st)
    (key : String) : RunnerInv (st.cancelProc key) := by
  unfold RunnerState.cancelProc
  split
  · exact ⟨keysUnique_eraseKey key h.1, h.2⟩
  · exact h

theorem RunnerInv.cancelTimer {st : RunnerState} (h : RunnerInv st)
    (key : String) : RunnerInv (st.cancelTimer key) := by
  unfold RunnerState.cancelTimer
  split
  · exact ⟨h.1, keysUnique_eraseKey key h.2⟩
  · exact h

theorem RunnerInv.cancel {st : RunnerState} (h : RunnerInv st) (key : String) :
    RunnerInv (st.cancel key) :=
  (h.cancelProc key).cancelTimer key

theorem RunnerInv.executeNix {st : RunnerState} (h : RunnerInv st)
    (args : List String) (key : String) :
    RunnerInv (st.executeNix args key) :=
  ⟨keysUnique_insertKey key st.nextPid h.1, h.2⟩

theorem RunnerInv.run {st : RunnerState} (h : RunnerInv st)
    (args : List String) (key : String) (debounce : Bool) :
    RunnerInv (st.run args key debounce) := by
  unfold RunnerState.run
  cases debounce with
  | true =>
    exact ⟨(h.cancel key).1, keysUnique_insertKey key args (h.cancel key).2⟩
  | false => exact (h.cancel key).executeNix args key

theorem RunnerInv.timerFire {st : RunnerState} (h : RunnerInv st)
    (key : String) : RunnerInv (st.timerFire key) := by
  unfold RunnerState.timerFire
  split
  · rename_i args heq
    have h2 : RunnerInv
        { st with debounceTimers := eraseKey key st.debounceTimers } :=
      ⟨h.1, keysUnique_eraseKey key h.2⟩
    exact h2.executeNix args key
  · exact h

/-! Field computations for the state-machine operations. -/

theorem cancelProc_debounceTimers (key : String) (st : RunnerState) :
    (st.cancelProc key).debounceTimers = st.debounceTimers := by
  unfold RunnerState.cancelProc
  split <;> rfl

theorem cancelProc_spawned (key : String) (st : RunnerState) :
    (st.cancelProc key).spawned = st.spawned := by
  unfold RunnerState.cancelProc
  split <;> rfl

theorem cancelProc_nextPid (key : String) (st : RunnerState) :
    (st.cancelProc key).nextPid = st.nextPid := by
  unfold RunnerState.cancelProc
  split <;> rfl

theorem lookupKey_cancelProc_self (key : String) (st : RunnerState) :
    lookupKey key (st.cancelProc key).activeProcesses = none := by
  unfold RunnerState.cancelProc
  split
  · exact lookupKey_eraseKey_self key _
  · rename_i heq
    exact heq

theorem cancelProc_killed_mem {key : String} {st : RunnerState} {pid : Nat}
    (h : lookupKey key st.activeProcesses = some pid) :
    pid ∈ (st.cancelProc key).killed := by
  unfold RunnerState.cancelProc
  rw [h]
  exact List.mem_cons_self _ _

theorem cancelTimer_activeProcesses (key : String) (st : RunnerState) :
    (st.cancelTimer key).activeProcesses = st.activeProcesses := by
  unfold RunnerState.cancelTimer
  split <;> rfl

theorem cancelTimer_killed (key : String) (st : RunnerState) :
    (st.cancelTimer key).killed = st.killed := by
  unfold RunnerState.cancelTimer
  split <;> rfl

theorem cancelTimer_spawned (key : String) (st : RunnerState) :
    (st.cancelTimer key).spawned = st.spawned := by
  unfold RunnerState.cancelTimer
  split <;> rfl

theorem cancelTimer_nextPid (key : String) (st : RunnerState) :
    (st.cancelTimer key).nextPid = st.nextPid := by
  unfold RunnerState.cancelTimer
  split <;> rfl

theorem cancel_spawned (key : String) (st : RunnerState) :
    (st.cancel key).spawned = st.spawned := by
  unfold RunnerState.cancel
  rw [cancelTimer_spawned, cancelProc_spawned]

theorem cancel_nextPid (key : String) (st : RunnerState) :
    (st.cancel key).nextPid = st.nextPid := by
  unfold RunnerState.cancel
  rw [cancelTimer_nextPid, cancelProc_nextPid]

theorem lookupKey_cancel_active (key : String) (st : RunnerState) :
    lookupKey key (st.cancel key).activeProcesses = none := by
  unfold RunnerState.cancel
  rw [cancelTimer_activeProcesses]
  exact lookupKey_cancelProc_self key st

theorem cancel_killed_mem {key : String} {st : RunnerState} {pid : Nat}
    (h : lookupKey key st.activeProcesses = some pid) :
    pid ∈ (st.cancel key).killed := by
  unfold RunnerState.cancel
  rw [cancelTimer_killed]
  exact cancelProc_killed_mem h

theorem run_true_eq (args : List String) (key : String) (st : RunnerState) :
    st.run args key true
      = { st.cancel key with
          debounceTimers := insertKey key args (st.cancel key).debounceTimers } :=
  rfl

theorem run_false_eq (args : List String) (key : String) (st : RunnerState) :
    st.run args key false = (st.cancel key).executeNix args key := rfl

theorem timerFire_some {key : String} {st : RunnerState} {args : List String}
    (h : lookupKey key st.debounceTimers = some args) :
    st.timerFire key
      = RunnerState.executeNix args key
          { st with debounceTimers := eraseKey key st.debounceTimers } := by
  unfold RunnerState.timerFire
  rw [h]

theorem run_true_spawned (args : List String) (key : String) (st : RunnerState) :
    (st.run args key true).spawned = st.spawned := by
  rw [run_true_eq]
  exact cancel_spawned key st

theorem run_true_nextPid (args : List String) (key : String) (st : RunnerState) :
    (st.run args key true).nextPid = st.nextPid := by
  rw [run_true_eq]
  exact cancel_nextPid key st

theorem run_true_timers (args : List String) (key : String) (st : RunnerState) :
    (st.run args key true).debounceTimers
      = insertKey key args (st.cancel key).debounceTimers := by
  rw [run_true_eq]

/-- C2: issuing a second query under the same key while the first is still
pending supersedes the first. Debounce-window case: after the two `run`
calls nothing has been spawned, the single timer for the key holds the
second request, and firing it spawns exactly one external invocation,
carrying the second request's arguments. Running-process case: the first
call's process is the one registered for the key, the second call kills it
(SIGTERM) and registers its own process as the only pending one for the
key. Throughout, the at-most-one-pending-process-and-timer-per-key
invariant is preserved. -/
theorem C2_same_key_supersede (st : RunnerState) (k : String)
    (a1 a2 : List String) (hInv : RunnerInv st) :
    (((st.run a1 k true).run a2 k true).spawned = st.spawned ∧
      lookupKey k ((st.run a1 k true).run a2 k true).debounceTimers
        = some a2 ∧
      (((st.run a1 k true).run a2 k true).timerFire k).spawned
        = st.spawned ++ [(k, a2, st.nextPid)] ∧
      RunnerInv ((st.run a1 k true).run a2 k true) ∧
      RunnerInv (((st.run a1 k true).run a2 k true).timerFire k)) ∧
    (lookupKey k (st.run a1 k false).activeProcesses = some st.nextPid ∧
      st.nextPid ∈ ((st.run a1 k false).run a2 k false).killed ∧
      lookupKey k ((st.run a1 k false).run a2 k false).activeProcesses
        = some (st.nextPid + 1) ∧
      ((st.run a1 k false).run a2 k false).spawned
        = st.spawned ++ [(k, a1, st.nextPid), (k, a2, st.nextPid + 1)] ∧
      RunnerInv ((st.run a1 k false).run a2 k false)) := by
  have hA1 : ((st.run a1 k true).run a2 k true).spawned = st.spawned := by
    rw [run_true_spawned, run_true_spawned]
  have hA2 : lookupKey k ((st.run a1 k true).run a2 k true).debounceTimers
      = some a2 := by
    rw [run_true_timers]
    exact lookupKey_insertKey_self k a2 _
  have hAn : ((st.run a1 k true).run a2 k true).nextPid = st.nextPid := by
    rw [run_true_nextPid, run_true_nextPid]
  have hA3 : (((st.run a1 k true).run a2 k true).timerFire k).spawned
      = st.spawned ++ [(k, a2, st.nextPid)] := by
    rw [timerFire_some hA2]
    show ((st.run a1 k true).run a2 k true).spawned
      ++ [(k, a2, ((st.run a1 k true).run a2 k true).nextPid)] = _
    rw [hA1, hAn]
  have hA4 : RunnerInv ((st.run a1 k true).run a2 k true) :=
    ((hInv.run a1 k true).run a2 k true)
  have hB1 : lookupKey k (st.run a1 k false).activeProcesses
      = some st.nextPid := by
    rw [run_false_eq]
    show lookupKey k
      (insertKey k (st.cancel k).nextPid (st.cancel k).activeProcesses) = _
    rw [lookupKey_insertKey_self, cancel_nextPid]
  have hBs1 : (st.run a1 k false).spawned
      = st.spawned ++ [(k, a1, st.nextPid)] := by
    rw [run_false_eq]
    show (st.cancel k).spawned ++ [(k, a1, (st.cancel k).nextPid)] = _
    rw [cancel_spawned, cancel_nextPid]
  have hBn1 : (st.run a1 k false).nextPid = st.nextPid + 1 := by
    rw [run_false_eq]
    show (st.cancel k).nextPid + 1 = _
    rw [cancel_nextPid]
  have hB2 : st.nextPid ∈ ((st.run a1 k false).run a2 k false).killed := by
    rw [run_false_eq a2]
    show st.nextPid ∈ ((st.run a1 k false).cancel k).killed
    exact cancel_killed_mem hB1
  have hB3 : lookupKey k ((st.run a1 k false).run a2 k false).activeProcesses
      = some (st.nextPid + 1) := by
    rw [run_false_eq a2]
    show lookupKey k
      (insertKey k ((st.run a1 k false).cancel k).nextPid
        ((st.run a1 k false).cancel k).activeProcesses) = _
    rw [lookupKey_insertKey_self, cancel_nextPid, hBn1]
  have hB4 : ((st.run a1 k false).run a2 k false).spawned
      = st.spawned ++ [(k, a1, st.nextPid), (k, a2, st.nextPid + 1)] := by
    rw [run_false_eq a2]
    show ((st.run a1 k false).cancel k).spawned
      ++ [(k, a2, ((st.run a1 k false).cancel k).nextPid)] = _
    rw [cancel_spawned, cancel_nextPid, hBs1, hBn1, List.append_assoc]
    rfl
  exact ⟨⟨hA1, hA2, hA3, hA4, hA4.timerFire k⟩,
    ⟨hB1, hB2, hB3, hB4, (hInv.run a1 k false).run a2 k false⟩⟩

/-- Witness for C2 from the empty runner state with key
`attrNames:programs`. -/
theorem C2_witness :
    RunnerInv (⟨[], [], [], [], 0⟩ : RunnerState) ∧
    ((((⟨[], [], [], [], 0⟩ : RunnerState).run ["eval", "a"]
        "attrNames:programs" true).run ["eval", "b"]
        "attrNames:programs" true).timerFire "attrNames:programs").spawned
      = [("attrNames:programs", ["eval", "b"], 0)] :=
  ⟨by decide,
    (C2_same_key_supersede ⟨[], [], [], [], 0⟩ "attrNames:programs"
      ["eval", "a"] ["eval", "b"] (by decide)).1.2.2.1⟩

/-! ### Smart-refresh orchestrator

`extension.ts` wires the tree view to `onNodeExpanded` / `onNodeCollapsed`
and the file watcher to `smartRefresh`, but the provider class
implementing them is not among the sources; the definitions below follow
the spec's Refresh Orchestrator and Expansion Tracker together with the
code laid out in `docs/nixd-migration-plan.md`. -/

structure NodeMetadata where
  type : String
  isDrv : Bool
  attrNames : Option (List String) := none
  listLength : Option Nat := none
  value : Option String := none
  timestamp : Nat
deriving DecidableEq, Repr

structure TreeState where
  expandedPaths : List String
  metadataCache : List (String × NodeMetadata)
deriving DecidableEq, Repr

/-- Modelled from the spec: path depth as used by the smart-refresh sort,
`path.split('.').length` (the implementing provider is absent from the
sources). -/
def depth (p : String) : Nat := (dotSplitChars p.data).length

/-- The comparator `(a, b) => depthB - depthA`: `a` precedes `b` when `a`
is at least as deep. -/
def deeperEq (a b : String) : Prop := depth b ≤ depth a

instance : DecidableRel deeperEq := fun _ _ => Nat.decLe _ _

instance : IsTotal String deeperEq := ⟨fun x y => le_total (depth y) (depth x)⟩

instance : IsTrans String deeperEq := ⟨fun _ _ _ hab hbc => le_trans hbc hab⟩

/-- Modelled from the spec: `smartRefresh` (absent from the sources; the
migration plan gives its body): (1) sort the expanded paths by depth,
deepest first (stable, as JavaScript `Array.sort`); (2) delete every
cached path not in the expanded set; (3) for each sorted expanded path,
delete its cache entry and fire a re-fetch for its node when one is found.
Returns the new state and the re-issued paths in order. -/
def smartRefresh (st : TreeState) (nodeExists : String → Bool) :
    TreeState × List String :=
  let sortedPaths := List.insertionSort deeperEq st.expandedPaths
  let cache1 := st.metadataCache.filter (fun e => st.expandedPaths.contains e.1)
  let cache2 := cache1.filter (fun e => !(sortedPaths.contains e.1))
  let issued := sortedPaths.filter nodeExists
  ({ st with metadataCache := cache2 }, issued)

/-- Modelled from the spec: `onNodeCollapsed(path)` (absent from the
sources; the migration plan gives its body): drop the path from the
expanded set and delete every cache entry whose key is the path itself or
starts with the path followed by a dot. -/
def onNodeCollapsed (path : String) (st : TreeState) : TreeState :=
  { expandedPaths := st.expandedPaths.erase path,
    metadataCache := st.metadataCache.filter
      (fun e => !(e.1 == path || (path.data ++ ['.']).isPrefixOf e.1.data)) }

/-- Looking a key up after filtering by a predicate on keys. -/
theorem lookupKey_filter_keyPred {α : Type} (g : String → Bool) (q : String)
    (l : List (String × α)) :
    lookupKey q (l.filter (fun e => g e.1))
      = if g q then lookupKey q l else none := by
  induction l with
  | nil =>
    simp only [List.filter_nil]
    split <;> rfl
  | cons e rest ih =>
    rw [List.filter_cons]
    by_cases hg : g e.1
    · rw [if_pos hg, lookupKey_cons]
      by_cases he : e.1 = q
      · rw [if_pos he, lookupKey_cons, if_pos he, if_pos (he ▸ hg)]
      · rw [if_neg he, ih, lookupKey_cons, if_neg he]
    · rw [if_neg hg, ih, lookupKey_cons]
      by_cases hq : g q
      · have he : ¬ e.1 = q := fun hc => hg (hc ▸ hq)
        simp [hq, he]
      · simp [hq]

/-- C5: a smart refresh evicts every cached path that is not in the
expansion set without re-fetching it, and invalidates and re-issues a
fetch for every expanded path; the re-issues are ordered by depth
descending (a path with more dot-segments is processed before one with
fewer) and cover the expanded set exactly (a permutation of it). -/
theorem C5_smartRefresh_evicts_and_refetches_deepest_first
    (st : TreeState) (nodeExists : String → Bool)
    (hAll : ∀ p ∈ st.expandedPaths, nodeExists p = true) :
    (∀ q, q ∉ st.expandedPaths →
      lookupKey q (smartRefresh st nodeExists).1.metadataCache = none ∧
      q ∉ (smartRefresh st nodeExists).2) ∧
    (∀ p ∈ st.expandedPaths,
      lookupKey p (smartRefresh st nodeExists).1.metadataCache = none ∧
      p ∈ (smartRefresh st nodeExists).2) ∧
    List.Perm (smartRefresh st nodeExists).2 st.expandedPaths ∧
    (smartRefresh st nodeExists).2.Pairwise deeperEq := by
  have hfilter : (List.insertionSort deeperEq st.expandedPaths).filter
      nodeExists = List.insertionSort deeperEq st.expandedPaths :=
    List.filter_eq_self.mpr (fun a ha => hAll a (by simpa using ha))
  have hIssued : (smartRefresh st nodeExists).2
      = List.insertionSort deeperEq st.expandedPaths := by
    show (List.insertionSort deeperEq st.expandedPaths).filter nodeExists = _
    exact hfilter
  have hcache : ∀ q, lookupKey q (smartRefresh st nodeExists).1.metadataCache
      = if !((List.insertionSort deeperEq st.expandedPaths).contains q)
        then (if st.expandedPaths.contains q
              then lookupKey q st.metadataCache else none)
        else none := by
    intro q
    show lookupKey q
      ((st.metadataCache.filter
          (fun e => st.expandedPaths.contains e.1)).filter
        (fun e =>
          !((List.insertionSort deeperEq st.expandedPaths).contains e.1))) = _
    rw [lookupKey_filter_keyPred
        (fun k => !((List.insertionSort deeperEq st.expandedPaths).contains k))
        q _,
      lookupKey_filter_keyPred (fun k => st.expandedPaths.contains k) q _]
  refine ⟨?_, ?_, ?_, ?_⟩
  · intro q hq
    have hcexp : st.expandedPaths.contains q = false :=
      Bool.eq_false_iff.mpr (fun hc => hq (List.elem_iff.mp hc))
    constructor
    · rw [hcache q, hcexp]
      simp
    · rw [hIssued]
      intro hmem
      exact hq (by simpa using hmem)
  · intro p hp
    have hcs : (List.insertionSort deeperEq st.expandedPaths).contains p
        = true := List.elem_iff.mpr (by simpa using hp)
    constructor
    · rw [hcache p, hcs]
      simp
    · rw [hIssued]
      simpa using hp
  · rw [hIssued]
    exact List.perm_insertionSort deeperEq st.expandedPaths
  · rw [hIssued]
    exact List.sorted_insertionSort deeperEq st.expandedPaths

/-- Witness for C5 at the spec's example: expanded set `{a, a.b, c}`,
cached set `{a, a.b, c, d}` — `d` is evicted and the re-issue order is
`a.b` before `a` before `c`. -/
theorem C5_witness :
    lookupKey "d" (smartRefresh
      ⟨["a", "a.b", "c"],
        [("a", ⟨"set", false, none, none, none, 0⟩),
         ("a.b", ⟨"set", false, none, none, none, 0⟩),
         ("c", ⟨"set", false, none, none, none, 0⟩),
         ("d", ⟨"set", false, none, none, none, 0⟩)]⟩
      (fun _ => true)).1.metadataCache = none ∧
    (smartRefresh
      ⟨["a", "a.b", "c"],
        [("a", ⟨"set", false, none, none, none, 0⟩),
         ("a.b", ⟨"set", false, none, none, none, 0⟩),
         ("c", ⟨"set", false, none, none, none, 0⟩),
         ("d", ⟨"set", false, none, none, none, 0⟩)]⟩
      (fun _ => true)).2 = ["a.b", "a", "c"] :=
  ⟨((C5_smartRefresh_evicts_and_refetches_deepest_first
      ⟨["a", "a.b", "c"],
        [("a", ⟨"set", false, none, none, none, 0⟩),
         ("a.b", ⟨"set", false, none, none, none, 0⟩),
         ("c", ⟨"set", false, none, none, none, 0⟩),
         ("d", ⟨"set", false, none, none, none, 0⟩)]⟩
      (fun _ => true) (by decide)).1 "d" (by decide)).1,
   by decide⟩

/-- The claim's descendant-or-self test: `q`'s segment sequence starts
with all of `p`'s segments. -/
def isAncestorOrSelf (p q : String) : Prop :=
  dotSplitChars p.data <+: dotSplitChars q.data

instance (p q : String) : Decidable (isAncestorOrSelf p q) := by
  unfold isAncestorOrSelf
  infer_instance

theorem string_eq_of_data {a b : String} (h : a.data = b.data) : a = b :=
  congrArg String.mk h

theorem joinDots_append {a b : List (List Char)} (ha : a ≠ []) (hb : b ≠ []) :
    joinDots (a ++ b) = joinDots a ++ '.' :: joinDots b := by
  induction a with
  | nil => exact absurd rfl ha
  | cons s a' ih =>
    cases a' with
    | nil =>
      rw [List.singleton_append, joinDots_cons s b hb]
      rfl
    | cons t a2 =>
      rw [List.cons_append, joinDots_cons s (t :: a2 ++ b) (by simp),
        joinDots_cons s (t :: a2) (by simp), ih (by simp)]
      simp

/-- On the dotted display form, the segment-sequence test coincides with
the code's test `q === p || q.startsWith(p + '.')` — segment boundaries
are respected. -/
theorem isAncestorOrSelf_iff (p q : String) :
    isAncestorOrSelf p q ↔ (q = p ∨ (p.data ++ ['.']) <+: q.data) := by
  constructor
  · rintro ⟨t, ht⟩
    cases t with
    | nil =>
      left
      apply string_eq_of_data
      rw [← joinDots_dotSplitChars q.data, ← joinDots_dotSplitChars p.data,
        ← ht]
      simp
    | cons u t' =>
      right
      have hq : q.data = joinDots (dotSplitChars p.data ++ (u :: t')) := by
        rw [ht, joinDots_dotSplitChars]
      rw [hq, joinDots_append (dotSplitChars_ne_nil p.data) (by simp),
        joinDots_dotSplitChars]
      exact ⟨joinDots (u :: t'), by simp⟩
  · rintro (rfl | ⟨r, hr⟩)
    · exact ⟨[], by simp⟩
    · have hq : q.data = p.data ++ '.' :: r := by
        rw [← hr]
        simp
      rw [isAncestorOrSelf, hq, dotSplitChars_append_dot]
      exact ⟨dotSplitChars r, rfl⟩

/-- C6: collapsing `p` removes the cache entry of `p` and of every path
of which `p` is an ancestor (its segment sequence starts with all of
`p`'s segments) and leaves every other entry's lookup unchanged; since
the code's test appends the dot before testing the prefix, segment
boundaries are respected (collapsing `programs` leaves `programs2`
untouched, as the `if` is decided by the segment-sequence test). -/
theorem C6_onNodeCollapsed_evicts_descendants (st : TreeState)
    (p q : String) :
    lookupKey q (onNodeCollapsed p st).metadataCache
      = (if isAncestorOrSelf p q then none
         else lookupKey q st.metadataCache) := by
  show lookupKey q (st.metadataCache.filter
    (fun e => !(e.1 == p || (p.data ++ ['.']).isPrefixOf e.1.data))) = _
  rw [lookupKey_filter_keyPred
    (fun k => !(k == p || (p.data ++ ['.']).isPrefixOf k.data)) q
    st.metadataCache]
  have hb : (q == p || (p.data ++ ['.']).isPrefixOf q.data) = true
      ↔ isAncestorOrSelf p q := by
    rw [Bool.or_eq_true, beq_iff_eq, List.isPrefixOf_iff_prefix,
      isAncestorOrSelf_iff]
  by_cases h : isAncestorOrSelf p q
  · rw [if_pos h, hb.mpr h]
    simp
  · rw [if_neg h]
    have hbf : (q == p || (p.data ++ ['.']).isPrefixOf q.data) = false :=
      Bool.eq_false_iff.mpr (fun hbt => h (hb.mp hbt))
    rw [hbf]
    simp

/-! ### FlakeNode (src/flakeNode.ts)

Node data is modelled without the `vscode.TreeItem` visuals (icons,
tooltips) and without parent pointers (never read by the logic below);
the cached children are stored as plain node data, which is what freshly
fetched child nodes are. -/

inductive FlakeNodeType
  | Attrset | List | ListElement | Derivation | Leaf | Error | Loading
deriving DecidableEq, Repr

inductive CollapsibleState
  | none | collapsed | expanded
deriving DecidableEq, Repr

structure NodeData where
  label : String
  attrPath : String
  nodeType : FlakeNodeType
  collapsibleState : CollapsibleState
  description : Option String := Option.none
  errorMessage : Option String := Option.none
  listIndex : Option Nat := Option.none
deriving DecidableEq, Repr

/-- `FlakeNode.updateAppearance`: the collapsible state implied by the
node type (icon changes are not modelled). -/
def updateAppearance (nd : NodeData) : NodeData :=
  { nd with collapsibleState :=
      match nd.nodeType with
      | .Attrset | .List | .ListElement | .Derivation =>
        CollapsibleState.collapsed
      | .Leaf | .Error | .Loading => CollapsibleState.none }

/-- The `FlakeNode` constructor: store the fields, then
`updateAppearance` (which overrides the passed collapsible state from the
node type). -/
def mkNodeData (label attrPath : String) (t : FlakeNodeType)
    (c : CollapsibleState) : NodeData :=
  updateAppearance
    { label := label, attrPath := attrPath, nodeType := t,
      collapsibleState := c }

/-- `FlakeNode.setError`. -/
def setError (message : String) (nd : NodeData) : NodeData :=
  updateAppearance
    { nd with errorMessage := some message, nodeType := FlakeNodeType.Error,
              description := some "error" }

/-- `createErrorNode` (src/flakeNode.ts, lines 223-233). -/
def createErrorNode (message : String) (parentPath : String) : NodeData :=
  setError message
    (mkNodeData "Error" parentPath FlakeNodeType.Error CollapsibleState.none)

/-- `FlakeNode.createChild` for the `listIndex`-absent calls (the only
ones the provider makes). -/
def createChild (parent : NodeData) (name : String) (t : FlakeNodeType) :
    NodeData :=
  let childPath :=
    if parent.attrPath ≠ "" then parent.attrPath ++ "." ++ name else name
  mkNodeData name childPath t
    (if t = FlakeNodeType.Leaf then CollapsibleState.none
     else CollapsibleState.collapsed)

structure NodeCache where
  children : Option (List NodeData) := Option.none
  value : Option String := Option.none
  timestamp : Nat
deriving DecidableEq, Repr

structure FlakeNode where
  data : NodeData
  cache : Option NodeCache := Option.none
deriving DecidableEq, Repr

/-- `FlakeNode.getCachedChildren` with the default 60000 ms bound. -/
def getCachedChildren (node : FlakeNode) (now : Nat)
    (maxAgeMs : Nat := 60000) : Option (List NodeData) :=
  match node.cache with
  | some c =>
    match c.children with
    | some cs => if now - c.timestamp > maxAgeMs then Option.none else some cs
    | Option.none => Option.none
  | Option.none => Option.none

/-- `FlakeNode.cacheChildren`: spread the old cache, replace children and
timestamp. -/
def cacheChildren (node : FlakeNode) (children : List NodeData) (now : Nat) :
    FlakeNode :=
  let oldValue : Option String :=
    match node.cache with
    | some c => c.value
    | Option.none => Option.none
  { node with cache := some ⟨some children, oldValue, now⟩ }

/-! ### FlakeTreeProvider (src/nixRunner.ts, lines 387-1032)

The provider state holds the fields the children pipeline reads or
writes; `rootPath` is the resolved configuration value `getRootPath()`
returns, `statusLog` records `emitStatus` events, `queries` of each
result records, in order, the `NixRunner` calls issued. Query responses
are supplied by an `Oracle` (the external evaluator of the spec). -/

structure ProviderState where
  flakePath : String
  rootPath : String
  filterPath : String
  lastGoodChildren : List (String × List NodeData)
  prefetchCache : List (String × List NodeData)
  knownPaths : List String
  statusLog : List (String × String)
deriving DecidableEq, Repr

def emitStatus (t msg : String) (st : ProviderState) : ProviderState :=
  { st with statusLog := st.statusLog ++ [(t, msg)] }

/-- `FlakeTreeProvider.indexPath`. -/
def indexPath (attrPath : String) (st : ProviderState) : ProviderState :=
  if attrPath ≠ "" ∧ attrPath ∉ st.knownPaths then
    { st with knownPaths := st.knownPaths ++ [attrPath] }
  else st

/-- `FlakeTreeProvider.applyFilter` (lines 646-683): with a filter set,
keep children matching exactly, ancestors of the filter, descendants of
the filter, or label-fuzzy matches. -/
def applyFilter (st : ProviderState) (children : List NodeData) :
    List NodeData :=
  if st.filterPath = "" then children
  else
    let filterLower := st.filterPath.toLower
    children.filter (fun child =>
      let childPathLower := (toRelativePath st.rootPath child.attrPath).toLower
      let childLabelLower := child.label.toLower
      (childPathLower == filterLower) ||
      ((childPathLower ++ ".").data.isPrefixOf filterLower.data) ||
      ((filterLower ++ ".").data.isPrefixOf childPathLower.data) ||
      (filterLower.data.isPrefixOf childPathLower.data) ||
      decide (filterLower.data <:+: childLabelLower.data) ||
      decide (childLabelLower.data <:+: filterLower.data))

inductive Query
  | typeQ (p : String)
  | isDrvQ (p : String)
  | attrNamesQ (p : String)
  | listElemsQ (p : String)
  | valueQ (p : String)
deriving DecidableEq, Repr

/-- A `NixEvalResult`, typed per query: `success` with `data`, or the
failure `error` string. -/
inductive QueryResult (α : Type)
  | ok (data : α)
  | err (msg : String)
deriving DecidableEq, Repr

/-- One row of the batched list-elements payload. -/
structure ElemInfo where
  index : Nat
  name : String
  isDrv : Bool
deriving DecidableEq, Repr

/-- The external evaluator's answers for one resolution round. -/
structure Oracle where
  typeResult : QueryResult String
  drvResult : QueryResult Bool
  attrNamesResult : QueryResult (List String)
  listElemsResult : QueryResult (List ElemInfo)
  valueResult : QueryResult String
deriving DecidableEq, Repr

/-- JavaScript `msg || fallback` on the error strings. -/
def orElseMsg (msg fallback : String) : String :=
  if msg = "" then fallback else msg

structure FetchResult where
  children : List NodeData
  parent : NodeData
  state : ProviderState
  queries : List Query
deriving DecidableEq, Repr

/-- The `isDerivation` check block of `fetchAttrsetChildren`
(lines 847-853): a successful `true` answer marks the parent as a
derivation and refreshes its appearance. -/
def drvMarked (o : Oracle) (parent : NodeData) : NodeData :=
  match o.drvResult with
  | .ok true => updateAppearance { parent with nodeType := .Derivation }
  | _ => parent

/-- `FlakeTreeProvider.fetchAttrsetChildren` (lines 836-876): prefetch
cache short-circuit; `isDerivation` check (marks the parent); then
`getAttrNames`, falling back to last-known-good children or a single
error node on failure, and building sorted Attrset children on
success. -/
def fetchAttrsetChildren (st : ProviderState) (o : Oracle)
    (parent : NodeData) : FetchResult :=
  match lookupKey parent.attrPath st.prefetchCache with
  | some prefetched => ⟨prefetched, parent, st, []⟩
  | Option.none =>
    let parent1 := drvMarked o parent
    match o.attrNamesResult with
    | .err msg =>
      let st1 := emitStatus "error" (orElseMsg msg "Failed to get attributes") st
      match lookupKey parent.attrPath st.lastGoodChildren with
      | some lastGood =>
        ⟨lastGood, parent1, st1,
          [Query.isDrvQ parent.attrPath, Query.attrNamesQ parent.attrPath]⟩
      | Option.none =>
        ⟨[createErrorNode (orElseMsg msg "Failed to evaluate") parent.attrPath],
          parent1, st1,
          [Query.isDrvQ parent.attrPath, Query.attrNamesQ parent.attrPath]⟩
    | .ok attrNames =>
      let children :=
        (List.insertionSort (fun a b : String => a ≤ b) attrNames).map
          (fun name => createChild parent1 name FlakeNodeType.Attrset)
      let st1 := emitStatus "success"
        ("Loaded " ++ natToString children.length ++ " attributes") st
      ⟨children, parent1, st1,
        [Query.isDrvQ parent.attrPath, Query.attrNamesQ parent.attrPath]⟩

/-- The per-element child construction in `fetchListChildren` (lines
902-917): the constructor (whose `updateAppearance` call turns even
derivations collapsible), the `listIndex` assignment, the second
`updateAppearance`, and the final override making derivations
non-expandable. -/
def mkListChild (parentPath : String) (elem : ElemInfo) : NodeData :=
  let child0 := mkNodeData elem.name
    (parentPath ++ ".[" ++ natToString elem.index ++ "]")
    (if elem.isDrv then FlakeNodeType.Derivation else FlakeNodeType.ListElement)
    (if elem.isDrv then CollapsibleState.none else CollapsibleState.collapsed)
  let child1 := updateAppearance { child0 with listIndex := some elem.index }
  if elem.isDrv then { child1 with collapsibleState := CollapsibleState.none }
  else child1

/-- `FlakeTreeProvider.fetchListChildren` (lines 881-923): one batched
`getListElementsInfo` query; on failure the last-known-good or error-node
fallback; on success one child per element row. -/
def fetchListChildren (st : ProviderState) (o : Oracle) (parent : NodeData) :
    FetchResult :=
  let parent1 := updateAppearance { parent with nodeType := FlakeNodeType.List }
  match o.listElemsResult with
  | .err msg =>
    let st1 := emitStatus "error"
      (orElseMsg msg "Failed to get list elements") st
    match lookupKey parent.attrPath st.lastGoodChildren with
    | some lastGood =>
      ⟨lastGood, parent1, st1, [Query.listElemsQ parent.attrPath]⟩
    | Option.none =>
      ⟨[createErrorNode (orElseMsg msg "Failed to evaluate") parent.attrPath],
        parent1, st1, [Query.listElemsQ parent.attrPath]⟩
  | .ok elements =>
    let children := elements.map (mkListChild parent.attrPath)
    let st1 := emitStatus "success"
      ("Loaded " ++ natToString children.length ++ " list items") st
    ⟨children, parent1, st1, [Query.listElemsQ parent.attrPath]⟩

/-- `FlakeTreeProvider.fetchLeafValue` (lines 964-973); the display
formatting of the value is abstracted into storing the payload as the
description. -/
def fetchLeafValue (o : Oracle) (node : FlakeNode) (now : Nat) :
    FlakeNode × List Query :=
  match o.valueResult with
  | .ok v =>
    ({ data := { node.data with description := some v },
       cache := some { children := Option.none, value := some v,
                       timestamp := now } },
     [Query.valueQ node.data.attrPath])
  | .err msg =>
    ({ data := setError (orElseMsg msg "Failed to evaluate") node.data,
       cache := node.cache },
     [Query.valueQ node.data.attrPath])

structure FetchChildrenResult where
  children : List NodeData
  element : FlakeNode
  state : ProviderState
  queries : List Query
deriving DecidableEq, Repr

/-- `FlakeTreeProvider.fetchChildren` (lines 804-831): the combined
type query, then dispatch on the value type. -/
def fetchChildren (st : ProviderState) (o : Oracle) (element : FlakeNode)
    (now : Nat) : FetchChildrenResult :=
  match o.typeResult with
  | .err msg =>
    let st1 := emitStatus "error" (orElseMsg msg "Failed to get type") st
    match lookupKey element.data.attrPath st.lastGoodChildren with
    | some lastGood =>
      ⟨lastGood, element, st1, [Query.typeQ element.data.attrPath]⟩
    | Option.none =>
      ⟨[createErrorNode (orElseMsg msg "Failed to evaluate")
          element.data.attrPath],
        element, st1, [Query.typeQ element.data.attrPath]⟩
  | .ok valueType =>
    if valueType = "set" then
      let r := fetchAttrsetChildren st o element.data
      ⟨r.children, { element with data := r.parent }, r.state,
        Query.typeQ element.data.attrPath :: r.queries⟩
    else if valueType = "list" then
      let r := fetchListChildren st o element.data
      ⟨r.children, { element with data := r.parent }, r.state,
        Query.typeQ element.data.attrPath :: r.queries⟩
    else
      let el1 : FlakeNode :=
        { element with data :=
            { element.data with nodeType := FlakeNodeType.Leaf,
                                collapsibleState := CollapsibleState.none } }
      let lv := fetchLeafValue o el1 now
      ⟨[], lv.1, st, Query.typeQ element.data.attrPath :: lv.2⟩

/-- `FlakeTreeProvider.getChildren` (lines 695-740) for a present
element (the `element == undefined` root branch delegates to
`getRootChildren` and no claim depends on it). In this model every query
failure is in-band, so the `catch` branch is unreachable. -/
def getChildren (st : ProviderState) (o : Oracle) (element : FlakeNode)
    (now : Nat) : FetchChildrenResult :=
  if st.flakePath = "" then ⟨[], element, st, []⟩
  else
    match getCachedChildren element now with
    | some cached => ⟨applyFilter st cached, element, st, []⟩
    | Option.none =>
      let r := fetchChildren st o element now
      let st1 := r.children.foldl
        (fun acc child => indexPath child.attrPath acc) r.state
      if r.children.length > 0 ∧
          r.element.data.nodeType ≠ FlakeNodeType.Error then
        let el2 := cacheChildren r.element r.children now
        let lg2 := insertKey element.data.attrPath r.children st1.lastGoodChildren
        let st2 := { st1 with lastGoodChildren := lg2 }
        ⟨applyFilter st2 r.children, el2, st2, r.queries⟩
      else ⟨applyFilter st1 r.children, r.element, st1, r.queries⟩

/-! Helper computations for the provider pipeline. -/

theorem updateAppearance_nodeType (nd : NodeData) :
    (updateAppearance nd).nodeType = nd.nodeType := rfl

theorem drvMarked_nodeType_ne_error {o : Oracle} {parent : NodeData}
    (h : parent.nodeType ≠ FlakeNodeType.Error) :
    (drvMarked o parent).nodeType ≠ FlakeNodeType.Error := by
  unfold drvMarked
  split
  · rw [updateAppearance_nodeType]
    intro hc
    cases hc
  · exact h

theorem indexPath_flakePath (p : String) (st : ProviderState) :
    (indexPath p st).flakePath = st.flakePath := by
  unfold indexPath
  split <;> rfl

theorem foldl_indexPath_flakePath (cs : List NodeData) (st : ProviderState) :
    (cs.foldl (fun acc child => indexPath child.attrPath acc) st).flakePath
      = st.flakePath := by
  induction cs generalizing st with
  | nil => rfl
  | cons c rest ih => rw [List.foldl_cons, ih, indexPath_flakePath]

theorem getCachedChildren_cacheChildren (node : FlakeNode)
    (children : List NodeData) (now : Nat) :
    getCachedChildren (cacheChildren node children now) now = some children := by
  unfold getCachedChildren cacheChildren
  simp

theorem fetchChildren_set (st : ProviderState) (o : Oracle)
    (element : FlakeNode) (now : Nat)
    (htype : o.typeResult = QueryResult.ok "set") :
    fetchChildren st o element now =
      ⟨(fetchAttrsetChildren st o element.data).children,
       { element with data := (fetchAttrsetChildren st o element.data).parent },
       (fetchAttrsetChildren st o element.data).state,
       Query.typeQ element.data.attrPath
         :: (fetchAttrsetChildren st o element.data).queries⟩ := by
  unfold fetchChildren
  rw [htype]
  rfl

theorem fetchAttrsetChildren_ok (st : ProviderState) (o : Oracle)
    (parent : NodeData) (names : List String)
    (hpre : lookupKey parent.attrPath st.prefetchCache = Option.none)
    (hattrs : o.attrNamesResult = QueryResult.ok names) :
    fetchAttrsetChildren st o parent =
      ⟨(List.insertionSort (fun a b : String => a ≤ b) names).map
          (fun name => createChild (drvMarked o parent) name
            FlakeNodeType.Attrset),
       drvMarked o parent,
       emitStatus "success"
         ("Loaded "
           ++ natToString
             ((List.insertionSort (fun a b : String => a ≤ b) names).map
               (fun name => createChild (drvMarked o parent) name
                 FlakeNodeType.Attrset)).length
           ++ " attributes") st,
       [Query.isDrvQ parent.attrPath, Query.attrNamesQ parent.attrPath]⟩ := by
  unfold fetchAttrsetChildren
  rw [hpre, hattrs]

/-- C7 (amended): a successful children fetch is cached only when the
returned list is nonempty — in that case a fresh cache entry is written,
so an immediately following `children` call for the same element issues
no query at all and returns the same children. (The zero-length case is
refuted separately: an empty successful result is not cached and is
re-queried.) -/
theorem C7_nonempty_success_cached (st : ProviderState) (o o2 : Oracle)
    (element : FlakeNode) (now : Nat) (names : List String)
    (hfp : st.flakePath ≠ "")
    (hmiss : getCachedChildren element now = Option.none)
    (hpre : lookupKey element.data.attrPath st.prefetchCache = Option.none)
    (htype : o.typeResult = QueryResult.ok "set")
    (hattrs : o.attrNamesResult = QueryResult.ok names)
    (hne : names ≠ [])
    (hnotErr : element.data.nodeType ≠ FlakeNodeType.Error) :
    (getChildren (getChildren st o element now).state o2
        (getChildren st o element now).element now).queries = [] ∧
    (getChildren (getChildren st o element now).state o2
        (getChildren st o element now).element now).children
      = (getChildren st o element now).children := by
  have hA := fetchAttrsetChildren_ok st o element.data names hpre hattrs
  have hF := fetchChildren_set st o element now htype
  set kids := (List.insertionSort (fun a b : String => a ≤ b) names).map
      (fun name => createChild (drvMarked o element.data) name
        FlakeNodeType.Attrset) with hkids
  have hr1 : fetchChildren st o element now =
      ⟨kids, { element with data := drvMarked o element.data },
       emitStatus "success"
         ("Loaded " ++ natToString kids.length ++ " attributes") st,
       [Query.typeQ element.data.attrPath, Query.isDrvQ element.data.attrPath,
        Query.attrNamesQ element.data.attrPath]⟩ := by
    rw [hF, hA]
  have hlen : kids.length > 0 := by
    rw [hkids]
    simp only [List.length_map, List.length_insertionSort]
    exact List.length_pos.mpr hne
  have hel : (drvMarked o element.data).nodeType ≠ FlakeNodeType.Error :=
    drvMarked_nodeType_ne_error hnotErr
  set st1 := kids.foldl (fun acc child => indexPath child.attrPath acc)
      (emitStatus "success"
        ("Loaded " ++ natToString kids.length ++ " attributes") st) with hst1
  set st2 : ProviderState :=
      { st1 with lastGoodChildren :=
          insertKey element.data.attrPath kids st1.lastGoodChildren } with hst2
  have hgc : getChildren st o element now =
      ⟨applyFilter st2 kids,
       cacheChildren { element with data := drvMarked o element.data } kids now,
       st2,
       [Query.typeQ element.data.attrPath, Query.isDrvQ element.data.attrPath,
        Query.attrNamesQ element.data.attrPath]⟩ := by
    unfold getChildren
    rw [if_neg hfp, hmiss]
    simp only [hr1]
    rw [if_pos ⟨hlen, hel⟩]
  have hflake2 : st2.flakePath = st.flakePath := by
    rw [hst2]
    show st1.flakePath = st.flakePath
    rw [hst1, foldl_indexPath_flakePath]
    rfl
  have hsecond : getChildren st2 o2
      (cacheChildren { element with data := drvMarked o element.data } kids now)
      now
      = ⟨applyFilter st2 kids,
         cacheChildren { element with data := drvMarked o element.data } kids
           now,
         st2, []⟩ := by
    unfold getChildren
    rw [if_neg (by rw [hflake2]; exact hfp), getCachedChildren_cacheChildren]
  rw [hgc]
  show (getChildren st2 o2
      (cacheChildren { element with data := drvMarked o element.data } kids now)
      now).queries = [] ∧ _
  rw [hsecond]
  exact ⟨rfl, rfl⟩

/-- Witness for the amended C7 on concrete inputs: one successful fetch
of `a.b` with attribute names `y, x`; the immediately following call
issues no queries and returns the same children. -/
theorem C7_witness :
    (getChildren
      (getChildren ⟨"/ws", "", "", [], [], [], []⟩
        ⟨QueryResult.ok "set", QueryResult.ok false, QueryResult.ok ["y", "x"],
         QueryResult.ok [], QueryResult.ok ""⟩
        ⟨mkNodeData "b" "a.b" FlakeNodeType.Attrset CollapsibleState.collapsed,
         Option.none⟩ 1000).state
      ⟨QueryResult.ok "set", QueryResult.ok false, QueryResult.ok ["y", "x"],
       QueryResult.ok [], QueryResult.ok ""⟩
      (getChildren ⟨"/ws", "", "", [], [], [], []⟩
        ⟨QueryResult.ok "set", QueryResult.ok false, QueryResult.ok ["y", "x"],
         QueryResult.ok [], QueryResult.ok ""⟩
        ⟨mkNodeData "b" "a.b" FlakeNodeType.Attrset CollapsibleState.collapsed,
         Option.none⟩ 1000).element 1000).queries = [] :=
  (C7_nonempty_success_cached ⟨"/ws", "", "", [], [], [], []⟩
    ⟨QueryResult.ok "set", QueryResult.ok false, QueryResult.ok ["y", "x"],
     QueryResult.ok [], QueryResult.ok ""⟩
    ⟨QueryResult.ok "set", QueryResult.ok false, QueryResult.ok ["y", "x"],
     QueryResult.ok [], QueryResult.ok ""⟩
    ⟨mkNodeData "b" "a.b" FlakeNodeType.Attrset CollapsibleState.collapsed,
     Option.none⟩ 1000 ["y", "x"] (by decide) (by decide) (by decide)
    (by decide) (by decide) (by decide) (by decide)).1

/-- C7 counterexample: a successful fetch that returns an empty child
list is NOT written to the cache (the guard requires a nonempty list), so
an immediately following `children` call re-issues the queries instead of
hitting the cache — against the claim that zero-length results are cached
and not re-queried. -/
theorem C7_counterexample :
    (getChildren ⟨"/ws", "", "", [], [], [], []⟩
      ⟨QueryResult.ok "set", QueryResult.ok false, QueryResult.ok [],
       QueryResult.ok [], QueryResult.ok ""⟩
      ⟨mkNodeData "b" "a.b" FlakeNodeType.Attrset CollapsibleState.collapsed,
       Option.none⟩ 1000).element.cache = Option.none ∧
    (getChildren
      (getChildren ⟨"/ws", "", "", [], [], [], []⟩
        ⟨QueryResult.ok "set", QueryResult.ok false, QueryResult.ok [],
         QueryResult.ok [], QueryResult.ok ""⟩
        ⟨mkNodeData "b" "a.b" FlakeNodeType.Attrset CollapsibleState.collapsed,
         Option.none⟩ 1000).state
      ⟨QueryResult.ok "set", QueryResult.ok false, QueryResult.ok [],
       QueryResult.ok [], QueryResult.ok ""⟩
      (getChildren ⟨"/ws", "", "", [], [], [], []⟩
        ⟨QueryResult.ok "set", QueryResult.ok false, QueryResult.ok [],
         QueryResult.ok [], QueryResult.ok ""⟩
        ⟨mkNodeData "b" "a.b" FlakeNodeType.Attrset CollapsibleState.collapsed,
         Option.none⟩ 1000).element 1000).queries
      = [Query.typeQ "a.b", Query.isDrvQ "a.b", Query.attrNamesQ "a.b"] := by
  decide

/-! ### The batched list-elements query (C4) -/

/-- An element of a Nix list as seen by the batched query: the attributes
the `--apply` expression inspects. -/
structure NixElem where
  name : Option String := Option.none
  pname : Option String := Option.none
  typeAttr : Option String := Option.none
  hasDrvPath : Bool := false
deriving DecidableEq, Repr

/-- `(e.type or null) == "derivation" || (e ? drvPath)`. -/
def isDrvElem (e : NixElem) : Bool :=
  (e.typeAttr == some "derivation") || e.hasDrvPath

/-- The `--apply` payload of `NixRunner.getListElementsInfo` (lines
308-323), translated from the embedded Nix expression: in one call, for
every index `i` of the list, `{ index = i; name = e.name or e.pname or
(toString i); isDrv = ... }` (`builtins.genList` over the length with
`builtins.elemAt` enumerates the list). -/
def listElementsInfoFn (xs : List NixElem) : List ElemInfo :=
  xs.enum.map (fun p =>
    { index := p.1,
      name := (p.2.name.orElse (fun _ => p.2.pname)).getD (natToString p.1),
      isDrv := isDrvElem p.2 })

theorem mkListChild_fields (path : String) (elem : ElemInfo) :
    (mkListChild path elem).label = elem.name ∧
    (mkListChild path elem).attrPath
      = path ++ ".[" ++ natToString elem.index ++ "]" ∧
    (mkListChild path elem).nodeType
      = (if elem.isDrv then FlakeNodeType.Derivation
         else FlakeNodeType.ListElement) ∧
    (mkListChild path elem).collapsibleState
      = (if elem.isDrv then CollapsibleState.none
         else CollapsibleState.collapsed) := by
  cases hd : elem.isDrv <;>
    simp [mkListChild, mkNodeData, updateAppearance, hd]

/-- C4: resolving a collection node's children issues exactly one batched
element-metadata query, whatever the length `n` of the collection; the
single query's payload computes, for every element index, a display name
preferring `name`, then `pname`, then the literal index, plus a
derived-artifact flag; flagged elements become non-expandable Derivation
children and the rest expandable collection elements, all at paths
`parent.[i]`. -/
theorem C4_batched_collection_fetch (st : ProviderState) (o : Oracle)
    (parent : NodeData) (xs : List NixElem)
    (helems : o.listElemsResult = QueryResult.ok (listElementsInfoFn xs)) :
    (fetchListChildren st o parent).queries
      = [Query.listElemsQ parent.attrPath] ∧
    (fetchListChildren st o parent).children.length = xs.length ∧
    (∀ i, i < xs.length →
      ((fetchListChildren st o parent).children.get? i).map
          (fun c => (c.label, c.attrPath, c.nodeType, c.collapsibleState))
        = (xs.get? i).map (fun e =>
            ((e.name.orElse (fun _ => e.pname)).getD (natToString i),
             parent.attrPath ++ ".[" ++ natToString i ++ "]",
             (if isDrvElem e then FlakeNodeType.Derivation
              else FlakeNodeType.ListElement),
             (if isDrvElem e then CollapsibleState.none
              else CollapsibleState.collapsed)))) := by
  have hfl : fetchListChildren st o parent =
      ⟨(listElementsInfoFn xs).map (mkListChild parent.attrPath),
       updateAppearance { parent with nodeType := FlakeNodeType.List },
       emitStatus "success"
         ("Loaded "
           ++ natToString
             ((listElementsInfoFn xs).map (mkListChild parent.attrPath)).length
           ++ " list items") st,
       [Query.listElemsQ parent.attrPath]⟩ := by
    unfold fetchListChildren
    rw [helems]
  refine ⟨by rw [hfl], ?_, ?_⟩
  · rw [hfl]
    simp [listElementsInfoFn, List.enum_length]
  · intro i hi
    rw [hfl]
    show (((listElementsInfoFn xs).map (mkListChild parent.attrPath)).get? i).map
        _ = _
    rw [List.get?_map]
    unfold listElementsInfoFn
    rw [List.get?_map, List.enum_get?]
    rcases hx : xs.get? i with _ | e
    · simp [hx]
    · have hm := mkListChild_fields parent.attrPath
        ⟨i, (e.name.orElse (fun _ => e.pname)).getD (natToString i),
          isDrvElem e⟩
      simp only [Option.map_map, Option.map_some', Function.comp_def]
      rw [hm.1, hm.2.1, hm.2.2.1, hm.2.2.2]

/-- Witness for C4 at the spec's three-element scenario at path `x`:
`[{name:"git",drv},{unnamed},{pname:"vim",drv}]` — one batched query; the
nameless element falls back to its literal index, derivations are
non-expandable, others expandable, at `x.[i]`. -/
theorem C4_witness :
    (fetchListChildren ⟨"/ws", "", "", [], [], [], []⟩
      ⟨QueryResult.ok "list", QueryResult.ok false, QueryResult.ok [],
       QueryResult.ok (listElementsInfoFn
         [⟨some "git", Option.none, some "derivation", true⟩,
          ⟨Option.none, Option.none, Option.none, false⟩,
          ⟨Option.none, some "vim", some "derivation", true⟩]),
       QueryResult.ok ""⟩
      (mkNodeData "x" "x" FlakeNodeType.Attrset
        CollapsibleState.collapsed)).queries = [Query.listElemsQ "x"] ∧
    (fetchListChildren ⟨"/ws", "", "", [], [], [], []⟩
      ⟨QueryResult.ok "list", QueryResult.ok false, QueryResult.ok [],
       QueryResult.ok (listElementsInfoFn
         [⟨some "git", Option.none, some "derivation", true⟩,
          ⟨Option.none, Option.none, Option.none, false⟩,
          ⟨Option.none, some "vim", some "derivation", true⟩]),
       QueryResult.ok ""⟩
      (mkNodeData "x" "x" FlakeNodeType.Attrset
        CollapsibleState.collapsed)).children.length = 3 ∧
    ((fetchListChildren ⟨"/ws", "", "", [], [], [], []⟩
      ⟨QueryResult.ok "list", QueryResult.ok false, QueryResult.ok [],
       QueryResult.ok (listElementsInfoFn
         [⟨some "git", Option.none, some "derivation", true⟩,
          ⟨Option.none, Option.none, Option.none, false⟩,
          ⟨Option.none, some "vim", some "derivation", true⟩]),
       QueryResult.ok ""⟩
      (mkNodeData "x" "x" FlakeNodeType.Attrset
        CollapsibleState.collapsed)).children.get? 1).map
        (fun c => (c.label, c.attrPath, c.nodeType, c.collapsibleState))
      = some ("1", "x.[1]", FlakeNodeType.ListElement,
          CollapsibleState.collapsed) ∧
    ((fetchListChildren ⟨"/ws", "", "", [], [], [], []⟩
      ⟨QueryResult.ok "list", QueryResult.ok false, QueryResult.ok [],
       QueryResult.ok (listElementsInfoFn
         [⟨some "git", Option.none, some "derivation", true⟩,
          ⟨Option.none, Option.none, Option.none, false⟩,
          ⟨Option.none, some "vim", some "derivation", true⟩]),
       QueryResult.ok ""⟩
      (mkNodeData "x" "x" FlakeNodeType.Attrset
        CollapsibleState.collapsed)).children.get? 2).map
        (fun c => (c.label, c.attrPath, c.nodeType, c.collapsibleState))
      = some ("vim", "x.[2]", FlakeNodeType.Derivation,
          CollapsibleState.none) := by
  have h := C4_batched_collection_fetch ⟨"/ws", "", "", [], [], [], []⟩
    ⟨QueryResult.ok "list", QueryResult.ok false, QueryResult.ok [],
     QueryResult.ok (listElementsInfoFn
       [⟨some "git", Option.none, some "derivation", true⟩,
        ⟨Option.none, Option.none, Option.none, false⟩,
        ⟨Option.none, some "vim", some "derivation", true⟩]),
     QueryResult.ok ""⟩
    (mkNodeData "x" "x" FlakeNodeType.Attrset CollapsibleState.collapsed)
    [⟨some "git", Option.none, some "derivation", true⟩,
     ⟨Option.none, Option.none, Option.none, false⟩,
     ⟨Option.none, some "vim", some "derivation", true⟩] rfl
  have hn1 : natToString 1 = "1" := by
    rw [natToString_small (by norm_num)]
    rfl
  have hn2 : natToString 2 = "2" := by
    rw [natToString_small (by norm_num)]
    rfl
  refine ⟨h.1, h.2.1.trans (by decide), ?_, ?_⟩
  · rw [h.2.2 1 (by decide), hn1]
    decide
  · rw [h.2.2 2 (by decide), hn2]
    decide

/-- C3: the last-known-good store is written even on failure. From an
empty state, a failing type query for `a.b` (message `boom`) returns
exactly one synthesized Error node carrying `boom` (the claim's fallback
behaviour), but the guard `element.nodeType !== Error` inspects the
parent element rather than the produced children, so that Error node is
recorded into `lastGoodChildren`; a later failing call (fresh message
`boom2`, cache expired) then returns the stale `boom` node instead of a
fresh Error node carrying `boom2`. -/
theorem C3_code_bug_lastGood_written_on_failure :
    (getChildren ⟨"/ws", "", "", [], [], [], []⟩
      ⟨QueryResult.err "boom", QueryResult.ok false, QueryResult.ok [],
       QueryResult.ok [], QueryResult.ok ""⟩
      ⟨mkNodeData "b" "a.b" FlakeNodeType.Attrset CollapsibleState.collapsed,
       Option.none⟩ 1000).children = [createErrorNode "boom" "a.b"] ∧
    lookupKey "a.b"
      (getChildren ⟨"/ws", "", "", [], [], [], []⟩
        ⟨QueryResult.err "boom", QueryResult.ok false, QueryResult.ok [],
         QueryResult.ok [], QueryResult.ok ""⟩
        ⟨mkNodeData "b" "a.b" FlakeNodeType.Attrset CollapsibleState.collapsed,
         Option.none⟩ 1000).state.lastGoodChildren
      = some [createErrorNode "boom" "a.b"] ∧
    (getChildren
      (getChildren ⟨"/ws", "", "", [], [], [], []⟩
        ⟨QueryResult.err "boom", QueryResult.ok false, QueryResult.ok [],
         QueryResult.ok [], QueryResult.ok ""⟩
        ⟨mkNodeData "b" "a.b" FlakeNodeType.Attrset CollapsibleState.collapsed,
         Option.none⟩ 1000).state
      ⟨QueryResult.err "boom2", QueryResult.ok false, QueryResult.ok [],
       QueryResult.ok [], QueryResult.ok ""⟩
      (getChildren ⟨"/ws", "", "", [], [], [], []⟩
        ⟨QueryResult.err "boom", QueryResult.ok false, QueryResult.ok [],
         QueryResult.ok [], QueryResult.ok ""⟩
        ⟨mkNodeData "b" "a.b" FlakeNodeType.Attrset CollapsibleState.collapsed,
         Option.none⟩ 1000).element 70000).children
      = [createErrorNode "boom" "a.b"] := by
  decide

end NixViewer
